import Mathlib

/-!
# go-embed: a shallow embedding of the generator and of the resolvers

The development follows the Go sources

* `main.go` (the generator: `ByteWriter`, `safeFunctionName`, `recursiveRead`,
  `contentType`, `randStr`, `main`),
* `examples/assets/main_dev.go` (the development resolver `Asset`),
* `examples/assets/main.go` (the example resolver with an error result).

Conventions.  A Go `string` is a Lean `String`, read as its sequence of runes
(the strings are taken to be valid UTF-8); a Go `byte` is a `Fin 256`; a
`[]byte` is a `List Byte`, and an `Option (List Byte)` where the code tells a
nil slice from an empty one.  Functions of the Go standard library that the
program calls but does not define (MD5, the gzip writer and reader, the Unicode
tables behind `strings.Title`) are the fields of `StdLib`; every theorem holds
for every such library.
-/

namespace GoEmbed

/-- A Go byte. -/
abbrev Byte := Fin 256

/-- A Go byte slice that may be nil (`none`); `some []` is the empty, non-nil slice. -/
abbrev Slice := Option (List Byte)

/-- The bytes of a slice; a nil slice has none. -/
def Slice.bytes : Slice → List Byte
  | none => []
  | some bs => bs

/-- The functions of the Go standard library that the program calls and does not
define, with the part of their contract the program relies on. -/
structure StdLib where
  /-- Package `crypto/md5`: the digest of a byte sequence. -/
  md5Sum : List Byte → List Byte
  /-- An MD5 digest has `md5.Size = 16` bytes. -/
  md5Sum_length : ∀ data, (md5Sum data).length = 16
  /-- Package `compress/gzip`: the arguments of the successive `Write` calls that a
  gzip writer of the given level makes on its underlying writer while `data` is
  written through it and it is closed. -/
  gzipWrite : Int → List Byte → List (List Byte)
  /-- Package `compress/gzip`: what a gzip reader yields for a stream, `none` when
  the stream is rejected. -/
  gunzip : List Byte → Option (List Byte)
  /-- Reading back what a gzip writer wrote gives the data written. -/
  gunzip_gzipWrite : ∀ level data, gunzip (gzipWrite level data).flatten = some data
  /-- Package `unicode`: `IsLetter`, consulted for runes above `0x7F` only. -/
  unicodeIsLetter : Char → Bool
  /-- Package `unicode`: `IsDigit`, consulted for runes above `0x7F` only. -/
  unicodeIsDigit : Char → Bool
  /-- Package `unicode`: `IsSpace`, consulted for runes above `0x7F` only. -/
  unicodeIsSpace : Char → Bool
  /-- Package `unicode`: `ToTitle`, consulted for runes above `0x7F` only. -/
  unicodeTitleCase : Char → Char

/-- The constant `gzip.BestCompression`. -/
def gzipBestCompression : Int := 9

/-- The constant `gzip.DefaultCompression`, the level of `gzip.NewWriter`. -/
def gzipDefaultCompression : Int := -1

/-! ## Packages `encoding/hex` and `fmt` -/

/-- The table `hextable` of package `encoding/hex`. -/
def hextable : String := "0123456789abcdef"

/-- The character `hextable[n]`. -/
def hexDigit (n : Nat) : Char := hextable.data.getD n '0'

/-- The two characters `hextable[v>>4]`, `hextable[v&0x0f]` of one byte; this is also
what the verb `%02x` prints for a byte. -/
def hexByte (v : Byte) : List Char := [hexDigit (v.val / 16), hexDigit (v.val % 16)]

/-- Go `hex.EncodeToString(src)`. -/
def hexEncodeToString (src : List Byte) : String := ⟨src.flatMap hexByte⟩

/-- The UTF-8 encoding of one rune. -/
def utf8EncodeRune (r : Nat) : List Nat :=
  if r < 0x80 then [r]
  else if r < 0x800 then [0xC0 + r / 0x40, 0x80 + r % 0x40]
  else if r < 0x10000 then [0xE0 + r / 0x1000, 0x80 + r / 0x40 % 0x40, 0x80 + r % 0x40]
  else [0xF0 + r / 0x40000, 0x80 + r / 0x1000 % 0x40, 0x80 + r / 0x40 % 0x40, 0x80 + r % 0x40]

/-- The conversion `[]byte(s)` of a string. -/
def stringBytes (s : String) : List Byte :=
  (s.data.flatMap fun r => utf8EncodeRune r.toNat).map fun n => Fin.ofNat n

/-! ## Package `strings` -/

/-- Go `strings.HasSuffix(s, suffix)`. -/
def stringsHasSuffix (s suffix : String) : Bool :=
  suffix.data.isSuffixOf s.data

/-- Go `strings.TrimSuffix(s, suffix)`. -/
def stringsTrimSuffix (s suffix : String) : String :=
  if stringsHasSuffix s suffix then ⟨s.data.take (s.data.length - suffix.data.length)⟩ else s

/-- The scan of `strings.Replace` for a non-empty `old` and no limit: `skip` counts the
runes of a match still to be passed over. -/
def replaceScan (old new : List Char) : Nat → List Char → List Char
  | _, [] => []
  | skip + 1, _ :: rest => replaceScan old new skip rest
  | 0, r :: rest =>
    if old.isPrefixOf (r :: rest) then new ++ replaceScan old new (old.length - 1) rest
    else r :: replaceScan old new 0 rest

/-- Go `strings.Replace(s, old, new, -1)`: every non-overlapping instance of `old`,
leftmost first, is replaced by `new`; an empty `old` matches before every rune and
at the end. -/
def stringsReplaceAll (s old new : String) : String :=
  if old = new then s
  else if old.data = [] then ⟨new.data ++ s.data.flatMap fun r => r :: new.data⟩
  else ⟨replaceScan old.data new.data 0 s.data⟩

/-- The ASCII letters, digits and the underscore. -/
def isWordChar (r : Char) : Bool :=
  (48 ≤ r.toNat && r.toNat ≤ 57) || (97 ≤ r.toNat && r.toNat ≤ 122) ||
    (65 ≤ r.toNat && r.toNat ≤ 90) || r.toNat = 95

/-- The upper-case form of an ASCII rune. -/
def asciiUpper (r : Char) : Char :=
  if 97 ≤ r.toNat ∧ r.toNat ≤ 122 then Char.ofNat (r.toNat - 32) else r

/-- The function `isSeparator` of package `strings`: ASCII alphanumerics and the
underscore are not separators, every other ASCII rune is; above ASCII, letters and
digits are not, and of the rest only spaces are. -/
def isSeparator (L : StdLib) (r : Char) : Bool :=
  if r.toNat ≤ 0x7F then !isWordChar r
  else if L.unicodeIsLetter r || L.unicodeIsDigit r then false
  else L.unicodeIsSpace r

/-- Go `unicode.ToTitle(r)`. -/
def unicodeToTitle (L : StdLib) (r : Char) : Char :=
  if r.toNat ≤ 0x7F then asciiUpper r else L.unicodeTitleCase r

/-- The mapping of `strings.Title` along the runes, `prev` being the rune before. -/
def titleMap (L : StdLib) : Char → List Char → List Char
  | _, [] => []
  | prev, r :: rest =>
    (if isSeparator L prev then unicodeToTitle L r else r) :: titleMap L r rest

/-- Go `strings.Title(s)`: the first rune of every word is mapped to title case. -/
def stringsTitle (L : StdLib) (s : String) : String := ⟨titleMap L ' ' s.data⟩

/-! ## Package `path` -/

/-- The elements of a path between its slashes. -/
def splitSlash : List Char → List (List Char)
  | [] => [[]]
  | r :: rest =>
    if r = '/' then [] :: splitSlash rest
    else
      match splitSlash rest with
      | [] => [[r]]
      | e :: es => (r :: e) :: es

/-- One element seen by `path.Clean`; `out` holds the elements kept so far, the last
one first.  Empty elements and `.` are dropped; `..` removes the element before it
when that is not itself a kept `..`, is dropped at the top of a rooted path and is
kept otherwise. -/
def cleanStep (rooted : Bool) (out : List (List Char)) (e : List Char) : List (List Char) :=
  if e = [] ∨ e = ['.'] then out
  else if e = ['.', '.'] then
    match out with
    | [] => if rooted then out else [e]
    | top :: below => if top = ['.', '.'] then e :: out else below
  else e :: out

/-- Go `path.Clean(p)`. -/
def pathClean (p : String) : String :=
  if p = "" then "."
  else
    let rooted := p.data.head? = some '/'
    let out := ((splitSlash p.data).foldl (cleanStep rooted) []).reverse
    let body := List.intercalate ['/'] out
    if rooted then ⟨'/' :: body⟩
    else if body = [] then "."
    else ⟨body⟩

/-- Go `path.Join(elem...)`: the non-empty elements joined by slashes and cleaned;
the empty string when all are empty. -/
def pathJoin (elem : List String) : String :=
  match elem.filter (fun e => e ≠ "") with
  | [] => ""
  | es => pathClean ⟨List.intercalate ['/'] (es.map String.data)⟩

/-! ## `contentType`, once per file that declares it -/

/-- The function `contentType` of `main.go` (lines 136-162). -/
def contentType (filename : String) : String :=
  if stringsHasSuffix filename ".png" then "image/png"
  else if stringsHasSuffix filename ".svg" then "image/png"
  else if stringsHasSuffix filename ".css" then "text/css"
  else if stringsHasSuffix filename ".js" then "application/js"
  else if stringsHasSuffix filename ".eot" then "font/eot"
  else if stringsHasSuffix filename ".ttf" then "font/ttf"
  else if stringsHasSuffix filename ".woff" || stringsHasSuffix filename ".woff2" then
    "application/font-woff"
  else if stringsHasSuffix filename ".html" then "text/html"
  else ""


/-- The function `contentType` of `examples/assets/main_dev.go` (lines 15-41). -/
def Dev.contentType (filename : String) : String :=
  if stringsHasSuffix filename ".png" then "image/png"
  else if stringsHasSuffix filename ".svg" then "image/png"
  else if stringsHasSuffix filename ".css" then "text/css"
  else if stringsHasSuffix filename ".js" then "application/js"
  else if stringsHasSuffix filename ".eot" then "font/eot"
  else if stringsHasSuffix filename ".ttf" then "font/ttf"
  else if stringsHasSuffix filename ".woff" || stringsHasSuffix filename ".woff2" then
    "application/font-woff"
  else if stringsHasSuffix filename ".html" then "text/html"
  else ""

/-- The function `contentType` of `examples/assets/main.go` (lines 12-41). -/
def Example.contentType (filename : String) : String :=
  if stringsHasSuffix filename ".png" then "image/png"
  else if stringsHasSuffix filename ".svg" then "image/svg"
  else if stringsHasSuffix filename ".jpg" then "image/jpg"
  else if stringsHasSuffix filename ".css" then "text/css"
  else if stringsHasSuffix filename ".js" then "application/js"
  else if stringsHasSuffix filename ".eot" then "font/eot"
  else if stringsHasSuffix filename ".ttf" then "font/ttf"
  else if stringsHasSuffix filename ".woff" || stringsHasSuffix filename ".woff2" then
    "application/font-woff"
  else if stringsHasSuffix filename ".html" then "text/html"
  else ""

/-! ## `ByteWriter` (`main.go`, lines 34-63) -/

/-- The struct `ByteWriter`.  `out` is the text the embedded `io.Writer` has received,
`digest` the bytes written to the `hash.Hash` so far (its state), `hashed` the field
of that name. -/
structure ByteWriter where
  out : String
  c : Nat
  digest : List Byte
  hashed : List Byte
deriving DecidableEq

/-- Go `h.Sum(b)` for the MD5 `hash.Hash` whose written bytes are `written`: the
digest of everything written, appended to `b`. -/
def digestSum (L : StdLib) (written b : List Byte) : List Byte := b ++ L.md5Sum written

/-- One round of the loop `for n = range p` of `Write` (lines 47-56) for the byte
`b = p[n]`. -/
def ByteWriter.writeByte (w : ByteWriter) (b : Byte) : ByteWriter :=
  let w1 : ByteWriter :=
    if w.c % 12 = 0 then { w with out := w.out ++ "\n" ++ "\t", c := 0 }
    else { w with out := w.out ++ " " }
  { w1 with out := w1.out ++ ("0x" ++ String.mk (hexByte b) ++ ","), c := w1.c + 1 }

/-- The loop `for n = range p` of `Write`: the writer and the value of `n` after it,
from the writer and the value of `n` before it, `i` being the index of the next
element. -/
def ByteWriter.writeLoop : ByteWriter → Nat → Nat → List Byte → ByteWriter × Nat
  | w, n, _, [] => (w, n)
  | w, _, i, b :: rest => ByteWriter.writeLoop (w.writeByte b) i (i + 1) rest

/-- The method `(*ByteWriter).Write`: the writer after the call, the count `n` and
the error (`none` is nil). -/
def ByteWriter.Write (L : StdLib) (w : ByteWriter) (p : List Byte) :
    ByteWriter × Nat × Option String :=
  if p.length = 0 then (w, 0, none)
  else
    let (w1, n) := ByteWriter.writeLoop w 0 0 p
    let n := n + 1
    let w2 : ByteWriter := { w1 with digest := w1.digest ++ p }
    let w3 : ByteWriter := { w2 with hashed := digestSum L w2.digest w2.hashed }
    (w3, n, none)

/-! ## `safeFunctionName` (`main.go`, lines 65-83) -/

/-- Whether `regFuncName`, the expression `[^a-zA-Z0-9_]`, matches the one rune. -/
def regFuncNameMatch (r : Char) : Bool := !isWordChar r

/-- The loop of `safeFunctionName` over `inBytes`, with the flag `toUpper` and the
bytes `outBytes` collected so far.  The source steps through the bytes of the name;
every byte of a rune above `0x7F` matches `regFuncName`, so such a rune is passed
over whole and sets the flag, and the runes that are kept are ASCII, one byte each,
for which `strings.ToUpper` is `asciiUpper`. -/
def safeFunctionNameLoop : List Char → Bool → List Char → List Char
  | [], _, outBytes => outBytes
  | r :: rest, toUpper, outBytes =>
    if regFuncNameMatch r then safeFunctionNameLoop rest true outBytes
    else if toUpper then safeFunctionNameLoop rest false (outBytes ++ [asciiUpper r])
    else safeFunctionNameLoop rest toUpper (outBytes ++ [r])

/-- The function `safeFunctionName`. -/
def safeFunctionName (L : StdLib) (name : String) : String :=
  let name := stringsTitle L name
  let inBytes := name.data
  ⟨safeFunctionNameLoop inBytes false []⟩

/-! ## `recursiveRead` (`main.go`, lines 85-133) -/

/-- A Go `map[string]string`, as the list of its key-value pairs. -/
abbrev GoMap := List (String × String)

/-- The assignment `m[k] = v`. -/
def GoMap.set : GoMap → String → String → GoMap
  | [], k, v => [(k, v)]
  | (k1, v1) :: m, k, v => if k1 = k then (k, v) :: m else (k1, v1) :: GoMap.set m k v

/-- The lookup `v, ok := m[k]`, `none` when `ok` is false. -/
def GoMap.get : GoMap → String → Option String
  | [], _ => none
  | (k1, v1) :: m, k => if k1 = k then some v1 else GoMap.get m k

mutual
/-- What the walk finds at a name: a file with its content, a directory with its
entries, a file that `os.Open` fails on, or a directory that `ioutil.ReadDir` fails
on. -/
inductive FileNode where
  | file (content : List Byte)
  | dir (entries : Entries)
  | noOpen
  | noReadDir
/-- The entries of a directory in the order `ioutil.ReadDir` returns them (sorted by
name). -/
inductive Entries where
  | nil
  | cons (name : String) (node : FileNode) (rest : Entries)
end

/-- The state the generator threads through the walk: the text written to the output
so far and the package variables `files` and `filesType`. -/
structure GenState where
  out : String
  files : GoMap
  filesType : GoMap
deriving DecidableEq

/-- The byte writer after the gzip writer has passed it the given chunks, one `Write`
call for each. -/
def ByteWriter.writeChunks (L : StdLib) (w : ByteWriter) (chunks : List (List Byte)) :
    ByteWriter :=
  chunks.foldl (fun w p => (w.Write L p).1) w

/-- The table key of a file (lines 97-98): `strings.Replace(filename, *input, "", -1)`
followed by `path.Join("/", relativePath)`. -/
def relativePathOf (input filename : String) : String :=
  let relativePath := stringsReplaceAll filename input ""
  pathJoin ["/", relativePath]

/-- The body of the `else` branch of `recursiveRead` (lines 96-130) for a file that
opens, with the given content. -/
def readFileEntry (L : StdLib) (input filename : String) (content : List Byte)
    (st : GenState) : GenState :=
  let relativePath := relativePathOf input filename
  let out := st.out ++ ("var " ++ safeFunctionName L relativePath ++ " = []byte\x7b")
  let byteWriter : ByteWriter := { out := out, c := 0, digest := [], hashed := [] }
  let byteWriter := byteWriter.writeChunks L (L.gzipWrite gzipBestCompression content)
  let out := byteWriter.out ++ "\n\x7d\n"
  { out := out
    files := st.files.set relativePath (hexEncodeToString (digestSum L byteWriter.digest []))
    filesType := st.filesType.set relativePath (contentType relativePath) }

/-- The loop of `recursiveRead` over the entries of `folder`; `input` is the flag
`*input`.  A panic is an `Except.error`. -/
def readEntries (L : StdLib) (input : String) :
    String → Entries → GenState → Except String GenState
  | _, .nil, st => .ok st
  | folder, .cons name node rest, st =>
    let filename := pathJoin [folder, name]
    match node with
    | .dir entries =>
      match readEntries L input filename entries st with
      | .ok st1 => readEntries L input folder rest st1
      | .error e => .error e
    | .noReadDir => .error "panic: ReadDir"
    | .noOpen => .error "panic: Open"
    | .file content => readEntries L input folder rest (readFileEntry L input filename content st)

/-- The function `recursiveRead(w, folder)` on a directory whose listing succeeds with
the given entries, or fails (`none`). -/
def recursiveRead (L : StdLib) (input folder : String) (listing : Option Entries)
    (st : GenState) : Except String GenState :=
  match listing with
  | none => .error "panic: ReadDir"
  | some entries => readEntries L input folder entries st

/-! ## `randStr` and the dispatch written by `main` (`main.go`, lines 164-172, 281-296) -/

/-- The function `randStr`; `bytes` is the buffer as `rand.Read` has filled it. -/
def randStr (bytes : List Byte) : String :=
  let dictionary : String := "0123456789abcdef"
  ⟨bytes.map fun v => dictionary.data.getD (v.val % dictionary.data.length) '0'⟩

/-- The values that `Fprintf` is given for one branch of the `switch`: the expression
of the payload, the hash and the content type. -/
structure Branch where
  payload : String
  hash : String
  mime : String
deriving DecidableEq

/-- The value of `indexFile` (lines 281-284). -/
def indexFile (files : GoMap) : String :=
  if (files.get "/index.html").isSome then "IndexHtml" else "[]byte\x7b\x7d"

/-- The `case` branches that the loop over `files` writes (lines 285-291), in the
order of the list; the order in which Go ranges over the map is not fixed. -/
def mainCases (L : StdLib) (files filesType : GoMap) : List (String × Branch) :=
  files.map fun (path, hash) =>
    (path, { payload := safeFunctionName L path, hash := hash
             mime := (filesType.get path).getD "" })

/-- The `default` branch that `main` writes (lines 292-296), `token` being the result
of `randStr()`. -/
def mainDefault (files : GoMap) (token : String) : Branch :=
  { payload := indexFile files, hash := token, mime := "text/html" }

/-- The text of one `case` branch, as `Fprintf` writes it (lines 286-288). -/
def caseText (c : String × Branch) : String :=
  "\tcase \"" ++ c.1 ++ "\":\n\t\treturn " ++ c.2.payload ++ ", \"" ++ c.2.hash ++ "\", \"" ++
    c.2.mime ++ "\"\n"

/-- The text of the `default` branch and the end of the function, as `Fprintf` writes
it (lines 292-296). -/
def defaultText (d : Branch) : String :=
  "\tdefault:\n    \treturn " ++ d.payload ++ ", \"" ++ d.hash ++
    "\", \"text/html\"\n\t\x7d\n\x7d\n"

/-- The text `main` writes after the opening of the `switch` (lines 281-296), the map
being ranged over in the order `cases`. -/
def dispatchText (cases : List (String × Branch)) (d : Branch) : String :=
  cases.foldl (fun out c => out ++ caseText c) "" ++ defaultText d

/-- The text of the `import` block that `main` writes (lines 202-212). -/
def importsText : String :=
  "\nimport (\n" ++
  "    \"bytes\"\n" ++
  "    \"compress/gzip\"\n" ++
  "    \"crypto/md5\"\n" ++
  "    \"encoding/hex\"\n" ++
  "    \"io/ioutil\"\n" ++
  "    \"strings\"\n" ++
  ")\n" ++
  "\t\n"

/-- The format of the second `Fprintf` of `main` (lines 216-277), which holds the
written `contentType` and the head of the written `Asset`: the part before the first
`%s`. -/
def resolverText0 : String :=
  "\n" ++
  "// returns the contentType for the file\n" ++
  "func contentType(filename string) string \x7b\n" ++
  "    if strings.HasSuffix(filename, \".png\") \x7b\n" ++
  "    \treturn \"image/png\"\n" ++
  "    \x7d\n" ++
  "    if strings.HasSuffix(filename, \".svg\") \x7b\n" ++
  "    \treturn \"image/png\"\n" ++
  "    \x7d\n" ++
  "    if strings.HasSuffix(filename, \".css\") \x7b\n" ++
  "    \treturn \"text/css\"\n" ++
  "    \x7d\n" ++
  "    if strings.HasSuffix(filename, \".js\") \x7b\n" ++
  "      \treturn \"application/js\"\n" ++
  "    \x7d\n" ++
  "    if strings.HasSuffix(filename, \".eot\") \x7b\n" ++
  "      \treturn \"font/eot\"\n" ++
  "    \x7d\n" ++
  "    if strings.HasSuffix(filename, \".ttf\") \x7b\n" ++
  "      \treturn \"font/ttf\"\n" ++
  "    \x7d\n" ++
  "    if strings.HasSuffix(filename, \".woff\") || strings.HasSuffix(filename, \".woff2\") \x7b\n" ++
  "      \treturn \"application/font-woff\"\n" ++
  "    \x7d\n" ++
  "    if strings.HasSuffix(filename, \".html\") \x7b\n" ++
  "      \treturn \"text/html\"\n" ++
  "    \x7d\n" ++
  "    return \"\"\n" ++
  "\x7d\n" ++
  "\n" ++
  "// Asset Gets the file from system if debug otherwise gets it from the stored\n" ++
  "// data returns the data, the md5 hash of its content and its content type\n" ++
  "func Asset(path string, debug bool) ([]byte, string, string) \x7b\n" ++
  "    if debug \x7b\n" ++
  "    \tvar data []byte\n" ++
  "      \tvar err error\n" ++
  "      \tvar b bytes.Buffer\n" ++
  "      \tvar file string\n" ++
  "      \tif path == \"/\" \x7b\n" ++
  "        \tfile = \""

/-- The format of the second `Fprintf` of `main` (lines 216-277), which holds the
written `contentType` and the head of the written `Asset`: the part between the first
and the second `%s`. -/
def resolverText1 : String :=
  "\" + \"index.html\"\n" ++
  "        \tdata, err = ioutil.ReadFile(file)\n" ++
  "      \t\x7d else \x7b\n" ++
  "        \tfile = \""

/-- The format of the second `Fprintf` of `main` (lines 216-277), which holds the
written `contentType` and the head of the written `Asset`: the part between the second
and the third `%s`. -/
def resolverText2 : String :=
  "\" + path\n" ++
  "        \tdata, err = ioutil.ReadFile(file)\n" ++
  "      \t\x7d\n" ++
  "      \tif err != nil \x7b\n" ++
  "        \tfile = \""

/-- The format of the second `Fprintf` of `main` (lines 216-277), which holds the
written `contentType` and the head of the written `Asset`: the part after the third
`%s`. -/
def resolverText3 : String :=
  "\" + \"index.html\"\n" ++
  "        \tdata, err = ioutil.ReadFile(file)\n" ++
  "      \t\x7d\n" ++
  "      \tif err != nil \x7b\n" ++
  "      \t\treturn []byte(\"File Not Found \" + file), \"\", \"text/html\"\n" ++
  "      \t\x7d\n" ++
  "      \tif data != nil \x7b\n" ++
  "        \tw := gzip.NewWriter(&b)\n" ++
  "        \tw.Write(data)\n" ++
  "        \tw.Close()\n" ++
  "        \tdata = b.Bytes()\n" ++
  "      \t\x7d\n" ++
  "      \tsum := md5.Sum(data)\n" ++
  "      \treturn data, hex.EncodeToString(sum[1:len(sum)]), contentType(file)\n" ++
  "    \x7d\n" ++
  "    switch path \x7b\n"

/-- The text `main` writes before the walk (lines 191-214): the comment, the build
tag when the flag `tag` is not empty, the package clause and the imports. -/
def headerText (tag : String) : String :=
  let out := "// Code generated by go-embed\n\n"
  let out := if tag ≠ "" then out ++ ("// +build " ++ tag ++ "\n\n") else out
  let out := out ++ "package assets\n"
  out ++ importsText

/-- The text of the second `Fprintf` of `main` (lines 216-278): the format with
`*input`, `strings.TrimSuffix(*input, "/")` and `*input` in the place of its three
`%s`. -/
def resolverText (input : String) : String :=
  resolverText0 ++ input ++ resolverText1 ++ stringsTrimSuffix input "/" ++ resolverText2 ++
    input ++ resolverText3

/-- The function `main`: the text written to the output file, or the panic.  `input`,
`output` and `tag` are the flags, `created` tells whether `os.Create` succeeds,
`listing` is the listing of the input folder, `range` the order in which Go ranges
over the map `files`, and `rnd` the buffer of `randStr` as `rand.Read` fills it. -/
def main (L : StdLib) (input output tag : String) (created : Bool)
    (listing : Option Entries) (range : GoMap → GoMap) (rnd : List Byte) :
    Except String String :=
  if input = "" then .error "-input is required."
  else if output = "" then .error "-output is required."
  else if !created then .error "panic: Create"
  else
    match recursiveRead L input input listing ⟨headerText tag, [], []⟩ with
    | .error e => .error e
    | .ok st =>
      let out := st.out ++ resolverText input
      let out := out ++ dispatchText (mainCases L (range st.files) st.filesType)
        (mainDefault st.files (randStr rnd))
      .ok out

/-! ## The resolvers `Asset` -/

/-- The state of the file system as `ioutil.ReadFile` sees it: the content of the
files that can be read. -/
abbrev FileSystem := String → Option (List Byte)

/-- Go `ioutil.ReadFile(name)`: the data and whether `err != nil`.  The data is a
non-nil slice on success and nil on failure. -/
def ioutilReadFile (fs : FileSystem) (name : String) : Slice × Bool :=
  match fs name with
  | some data => (some data, false)
  | none => (none, true)

/-- The lines `w := gzip.NewWriter(&b); w.Write(data); w.Close(); data = b.Bytes()`. -/
def gzipBuffer (L : StdLib) (data : List Byte) : List Byte :=
  (L.gzipWrite gzipDefaultCompression data).flatten

/-- The function `Asset(base, path)` of `examples/assets/main_dev.go` (lines 48-75). -/
def Dev.Asset (L : StdLib) (fs : FileSystem) (base path : String) : Slice × String × String :=
  let (file, data, err) :=
    if path = "/" then
      let file := base ++ "index.html"
      let (data, err) := ioutilReadFile fs file
      (file, data, err)
    else
      let file := base ++ path
      let (data, err) := ioutilReadFile fs file
      (file, data, err)
  let (file, data, err) :=
    if err then
      let file := base ++ "index.html"
      let (data, err) := ioutilReadFile fs file
      (file, data, err)
    else (file, data, err)
  if err then (some (stringBytes ("File Not Found " ++ file)), "", "text/html")
  else
    let data : Slice :=
      match data with
      | some d => some (gzipBuffer L d)
      | none => none
    let sum := L.md5Sum data.bytes
    (data, hexEncodeToString (sum.drop 1), Dev.contentType file)

/-- The function `Asset(base, path)` of `examples/assets/main.go` (lines 49-64); the
last component is whether the returned error is non-nil. -/
def Example.Asset (L : StdLib) (fs : FileSystem) (base path : String) :
    Slice × String × String × Bool :=
  let file := base ++ path
  let (data, err) := ioutilReadFile fs file
  if err then (none, "", "", true)
  else
    let data : Slice :=
      match data with
      | some d => some (gzipBuffer L d)
      | none => none
    let sum := L.md5Sum data.bytes
    (data, hexEncodeToString (sum.drop 1), Example.contentType file, false)



/-! ## The reading of the written artifact -/

/-- The text of the byte literal with index `i` among those of one constant: the
separator (a new line and a tab before every twelfth, a space otherwise), then `0x`,
the two hexadecimal digits and a comma. -/
def entryText (i : Nat) (b : Byte) : String :=
  (if i % 12 = 0 then "\n\t" else " ") ++ ("0x" ++ String.mk (hexByte b) ++ ",")

/-- The text of the byte literals of the bytes `bs`, the first having index `i`. -/
def literalText : Nat → List Byte → String
  | _, [] => ""
  | i, b :: bs => entryText i b ++ literalText (i + 1) bs

/-- The literals of the bytes `bs`, each with a space before it. -/
def spacedText : List Byte → String
  | [] => ""
  | b :: bs => " " ++ ("0x" ++ String.mk (hexByte b) ++ ",") ++ spacedText bs

/-- One line of a constant: a new line and a tab, the literal of the first byte of
the line, and the literals of the others with a space before each. -/
def lineText : List Byte → String
  | [] => ""
  | b :: bs => "\n\t" ++ ("0x" ++ String.mk (hexByte b) ++ ",") ++ spacedText bs

/-- The value of a hexadecimal digit. -/
def hexValue (r : Char) : Option Nat :=
  if 48 ≤ r.toNat ∧ r.toNat ≤ 57 then some (r.toNat - 48)
  else if 97 ≤ r.toNat ∧ r.toNat ≤ 102 then some (r.toNat - 87)
  else if 65 ≤ r.toNat ∧ r.toNat ≤ 70 then some (r.toNat - 55)
  else none

/-- The byte slice that the element list of a Go composite literal `[]byte{...}`
denotes, for a list of two-digit hexadecimal literals each followed by a comma, with
blanks, tabs and new lines between them; `none` for any other text. -/
def readByteLiterals : List Char → Option (List Byte)
  | [] => some []
  | r :: rest =>
    if r = ' ' ∨ r = '\n' ∨ r = '\t' then readByteLiterals rest
    else
      match r, rest with
      | '0', 'x' :: h :: l :: ',' :: rest1 =>
        match hexValue h, hexValue l, readByteLiterals rest1 with
        | some a, some b, some bs => some (Fin.ofNat (16 * a + b) :: bs)
        | _, _, _ => none
      | _, _ => none

/-! ## The reading of the written `switch` -/

/-- What is left of a text after the given beginning, `none` when the text does not
begin so. -/
def expect : List Char → List Char → Option (List Char)
  | [], text => some text
  | _ :: _, [] => none
  | e :: es, r :: text => if e = r then expect es text else none

/-- The characters before the first `stop` and what follows it, `none` when there is
no `stop`. -/
def readUntil (stop : Char) : List Char → Option (List Char × List Char)
  | [] => none
  | r :: text =>
    if r = stop then some ([], text)
    else
      match readUntil stop text with
      | some (before, after) => some (r :: before, after)
      | none => none

/-- The number that digits of the given base write, `none` when one of the characters
is not such a digit. -/
def digitsValue (base : Nat) (digits : List Char) : Option Nat :=
  digits.foldl
    (fun acc d =>
      match acc, hexValue d with
      | some a, some v => if v < base then some (a * base + v) else none
      | _, _ => none)
    (some 0)

/-- The `k` digits of the given base at the head of a text, as the bytes `toBytes`
makes of their value; the second component is `k + 1`, the length of the escape
after its backslash for `\x`, `\u` and `\U`. -/
def readDigits (base k : Nat) (toBytes : Nat → Option (List Byte)) (text : List Char) :
    Option (List Byte × Nat) :=
  if (text.take k).length = k then
    match digitsValue base (text.take k) with
    | some n =>
      match toBytes n with
      | some bs => some (bs, k + 1)
      | none => none
    | none => none
  else none

/-- The bytes of a rune named by `\u` or `\U`: its UTF-8 encoding; surrogate halves
and values above `0x10FFFF` are not allowed. -/
def escapedRune (n : Nat) : Option (List Byte) :=
  if n < 0xD800 ∨ (0xDFFF < n ∧ n < 0x110000) then
    some ((utf8EncodeRune n).map fun b => Fin.ofNat b)
  else none

/-- The byte named by `\x` or by an octal escape; it must be below 256. -/
def escapedByte (n : Nat) : Option (List Byte) :=
  if n < 256 then some [Fin.ofNat n] else none

/-- The escape of a Go interpreted string literal whose backslash has been read: the
bytes it denotes and the number of characters it takes after the backslash.  The
escapes are `\a \b \f \n \r \t \v \\ \"`, three octal digits, `\x` and two
hexadecimal digits, `\u` and four, `\U` and eight. -/
def readEscape : List Char → Option (List Byte × Nat)
  | [] => none
  | r :: text =>
    if r = 'a' then some ([7], 1)
    else if r = 'b' then some ([8], 1)
    else if r = 'f' then some ([12], 1)
    else if r = 'n' then some ([10], 1)
    else if r = 'r' then some ([13], 1)
    else if r = 't' then some ([9], 1)
    else if r = 'v' then some ([11], 1)
    else if r = '\\' then some ([92], 1)
    else if r = '"' then some ([34], 1)
    else if r = 'x' then readDigits 16 2 escapedByte text
    else if r = 'u' then readDigits 16 4 escapedRune text
    else if r = 'U' then readDigits 16 8 escapedRune text
    else
      match readDigits 8 3 escapedByte (r :: text) with
      | some (bs, _) => some (bs, 3)
      | none => none

/-- The rest of a Go interpreted string literal whose opening double quote has been
read: the bytes the literal denotes and the text after its closing double quote.
`skip` counts the characters of an escape still to be passed over.  A line break
inside the literal, a wrong escape and a missing closing quote give `none`. -/
def readGoString : Nat → List Char → Option (List Byte × List Char)
  | _, [] => none
  | skip + 1, _ :: text => readGoString skip text
  | 0, r :: text =>
    if r = '"' then some ([], text)
    else if r = '\n' then none
    else if r = '\\' then
      match readEscape text with
      | some (bs, n) =>
        match readGoString n text with
        | some (value, after) => some (bs ++ value, after)
        | none => none
      | none => none
    else
      match readGoString 0 text with
      | some (value, after) => some (stringBytes ⟨[r]⟩ ++ value, after)
      | none => none

/-- What a branch of the written `switch` returns: the expression of the payload, and
the bytes that the string literals of the hash and of the content type denote. -/
structure Returned where
  payload : String
  hash : List Byte
  mime : List Byte
deriving DecidableEq

/-- The fixed text of a `case` branch before its label (line 286). -/
def caseOpen : List Char := "\tcase \"".data

/-- The fixed text of a `case` branch between the closing quote of its label and the
payload (lines 286-287). -/
def caseReturn : List Char := ":\n\t\treturn ".data

/-- The fixed text between the comma after the payload and the hash. -/
def hashOpen : List Char := " \"".data

/-- The fixed text between the closing quote of the hash and the content type. -/
def mimeOpen : List Char := ", \"".data

/-- The fixed text of a `case` branch after the closing quote of its content type. -/
def caseEnd : List Char := "\n".data

/-- The fixed text of the `default` branch before its payload (lines 292-293). -/
def defaultOpen : List Char := "\tdefault:\n    \treturn ".data

/-- The fixed text after the closing quote of the content type of the `default`
branch: the end of the `switch` and of the function (lines 293-295). -/
def switchEnd : List Char := "\n\t\x7d\n\x7d\n".data

/-- The three values after `return `, as the generator writes them: an expression up
to the comma, and two string literals with `, ` before each. -/
def readReturn (text : List Char) : Option (Returned × List Char) :=
  match readUntil ',' text with
  | none => none
  | some (payload, t1) =>
    match expect hashOpen t1 with
    | none => none
    | some t2 =>
      match readGoString 0 t2 with
      | none => none
      | some (hash, t3) =>
        match expect mimeOpen t3 with
        | none => none
        | some t4 =>
          match readGoString 0 t4 with
          | none => none
          | some (mime, t5) => some (⟨⟨payload⟩, hash, mime⟩, t5)

/-- The body of the written `switch path`, laid out as the generator writes it: the
`case` branches in order, each with the bytes its label denotes and what it returns,
and what the `default` branch returns.  `fuel` bounds the number of branches; `none`
for a text of another shape. -/
def readSwitch : Nat → List Char → Option (List (List Byte × Returned) × Returned)
  | 0, _ => none
  | fuel + 1, text =>
    match expect caseOpen text with
    | some t1 =>
      match readGoString 0 t1 with
      | none => none
      | some (label, t2) =>
        match expect caseReturn t2 with
        | none => none
        | some t3 =>
          match readReturn t3 with
          | none => none
          | some (returned, t4) =>
            match expect caseEnd t4 with
            | none => none
            | some t5 =>
              match readSwitch fuel t5 with
              | none => none
              | some (cases, d) => some ((label, returned) :: cases, d)
    | none =>
      match expect defaultOpen text with
      | none => none
      | some t1 =>
        match readReturn t1 with
        | none => none
        | some (returned, t2) =>
          match expect switchEnd t2 with
          | some [] => some ([], returned)
          | _ => none

/-- What a `switch path` with the given branches returns for a path: the value of
the first `case` whose label is the path, that of the `default` branch when there is
none. -/
def resolveSwitch (cases : List (List Byte × Returned)) (d : Returned) (path : List Byte) :
    Returned :=
  match cases.find? (fun c => c.1 = path) with
  | some c => c.2
  | none => d

/-- What the written `Asset(path, false)` returns for a path, from the text that
`main` writes after the opening of the `switch`; `none` when that text does not read
as a `switch` body.  The reading is of the `switch` alone: whether the constants it
names are declared, once and under names that Go accepts, is not looked at. -/
def writtenAsset (switchText : String) (path : List Byte) : Option Returned :=
  match readSwitch switchText.data.length switchText.data with
  | some (cases, d) => some (resolveSwitch cases d path)
  | none => none


/-- The word characters of a name (the ASCII letters, digits and underscores) in their
order, the letters in upper case. -/
def wordFold (name : String) : List Char :=
  (name.data.filter isWordChar).map asciiUpper

/-- A library with the contract of `StdLib` and nothing more: the digest is sixteen
zero bytes, the gzip writer writes the two magic bytes of the format in one chunk and
the data, as they are, in a second, the gzip reader takes the magic bytes off, no rune
above `0x7F` is a letter, a digit or a space, and none changes in title case.  It
serves where a statement is evaluated at a concrete input. -/
def plainLib : StdLib where
  md5Sum := fun _ => List.replicate 16 0
  md5Sum_length := fun _ => List.length_replicate 16 0
  gzipWrite := fun _ data => [[0x1f, 0x8b], data]
  gunzip := fun stream => if stream.take 2 = [0x1f, 0x8b] then some (stream.drop 2) else none
  gunzip_gzipWrite := fun _ data => by simp
  unicodeIsLetter := fun _ => false
  unicodeIsDigit := fun _ => false
  unicodeIsSpace := fun _ => false
  unicodeTitleCase := fun r => r

/-! # Theorems -/

/-- C6 (the generator and the development variant depart from the table): for a name
ending in `.svg` the `contentType` of `main.go` and that of `main_dev.go` return
`image/png` where the table and `examples/assets/main.go` have `image/svg`, and for a
name ending in `.jpg` they return the empty string where the table and
`examples/assets/main.go` have `image/jpg`. -/
theorem contentType_svg_jpg_diverge :
    contentType "/logo.svg" = "image/png" ∧ Dev.contentType "/logo.svg" = "image/png" ∧
    Example.contentType "/logo.svg" = "image/svg" ∧
    contentType "/photo.jpg" = "" ∧ Dev.contentType "/photo.jpg" = "" ∧
    Example.contentType "/photo.jpg" = "image/jpg" := by
  decide

/-- C1 (the key is not the root-relative path): with `-input a`, the file `a.txt` of
the root gets the key `/.txt`, and the two files `ab` and `b` of the root both get the
key `/b`, so that after the walk the table holds one record for the two of them; with
`-input ./public` the file `x.js` of the root gets the key `/public/x.js`. -/
theorem recursiveRead_key_collision :
    relativePathOf "a" (pathJoin ["a", "a.txt"]) = "/.txt" ∧
    relativePathOf "a" (pathJoin ["a", "ab"]) = "/b" ∧
    relativePathOf "a" (pathJoin ["a", "b"]) = "/b" ∧
    relativePathOf "./public" (pathJoin ["./public", "x.js"]) = "/public/x.js" ∧
    ∀ L : StdLib,
      (recursiveRead L "a" "a"
        (some (.cons "ab" (.file [1]) (.cons "b" (.file [2]) .nil))) ⟨"", [], []⟩).map
        (fun st => st.files.map Prod.fst) = .ok ["/b"] := by
  refine ⟨by decide, by decide, by decide, by decide, ?_⟩
  intro L
  have k1 : relativePathOf "a" (pathJoin ["a", "ab"]) = "/b" := by decide
  have k2 : relativePathOf "a" (pathJoin ["a", "b"]) = "/b" := by decide
  simp only [recursiveRead, readEntries, Except.map, readFileEntry, k1, k2, GoMap.set, if_true,
    List.map]

/-! ## `ByteWriter` -/

theorem writeByte_out (w : ByteWriter) (b : Byte) (i : Nat) (h : w.c % 12 = i % 12) :
    (w.writeByte b).out = w.out ++ entryText i b := by
  unfold ByteWriter.writeByte entryText
  by_cases h0 : w.c % 12 = 0
  · have hi : i % 12 = 0 := by omega
    simp only [h0, hi, if_true, String.append_assoc]
    rfl
  · have hi : ¬ i % 12 = 0 := by omega
    simp only [h0, hi, if_false, String.append_assoc]

theorem writeByte_c (w : ByteWriter) (b : Byte) (i : Nat) (h : w.c % 12 = i % 12) :
    (w.writeByte b).c % 12 = (i + 1) % 12 := by
  unfold ByteWriter.writeByte
  by_cases h0 : w.c % 12 = 0
  · simp only [h0, if_true]
    omega
  · simp only [h0, if_false]
    omega

theorem writeByte_digest (w : ByteWriter) (b : Byte) :
    (w.writeByte b).digest = w.digest ∧ (w.writeByte b).hashed = w.hashed := by
  unfold ByteWriter.writeByte
  by_cases h0 : w.c % 12 = 0 <;> simp [h0]


theorem literalText_append (i : Nat) (a b : List Byte) :
    literalText i (a ++ b) = literalText i a ++ literalText (i + a.length) b := by
  induction a generalizing i with
  | nil => simp [literalText]
  | cons x xs ih =>
    have e : i + 1 + xs.length = i + (xs.length + 1) := by omega
    rw [List.cons_append]
    simp only [literalText, List.length_cons]
    rw [ih, e, String.append_assoc]

theorem writeLoop_spec (p : List Byte) :
    ∀ (w : ByteWriter) (n k i : Nat), w.c % 12 = i % 12 →
      (ByteWriter.writeLoop w n k p).1.out = w.out ++ literalText i p ∧
      (ByteWriter.writeLoop w n k p).1.c % 12 = (i + p.length) % 12 ∧
      (ByteWriter.writeLoop w n k p).1.digest = w.digest ∧
      (ByteWriter.writeLoop w n k p).1.hashed = w.hashed ∧
      (ByteWriter.writeLoop w n k p).2 = (if p = [] then n else k + p.length - 1) := by
  induction p with
  | nil =>
    intro w n k i h
    simp [ByteWriter.writeLoop, literalText, h]
  | cons b rest ih =>
    intro w n k i h
    have hc := writeByte_c w b i h
    obtain ⟨h1, h2, h3, h4, h5⟩ := ih (w.writeByte b) k (k + 1) (i + 1) hc
    have hd := writeByte_digest w b
    simp only [ByteWriter.writeLoop, literalText, List.length_cons]
    refine ⟨?_, ?_, ?_, ?_, ?_⟩
    · rw [h1, writeByte_out w b i h, String.append_assoc]
    · rw [h2]
      congr 1
      omega
    · rw [h3, hd.1]
    · rw [h4, hd.2]
    · rw [h5]
      by_cases hr : rest = []
      · simp [hr]
      · simp only [hr, if_false, reduceCtorEq]
        omega

theorem Write_spec (L : StdLib) (w : ByteWriter) (p : List Byte) (i : Nat)
    (h : w.c % 12 = i % 12) :
    (w.Write L p).1.out = w.out ++ literalText i p ∧
    (w.Write L p).1.c % 12 = (i + p.length) % 12 ∧
    (w.Write L p).1.digest = w.digest ++ p ∧
    (w.Write L p).2 = (p.length, none) := by
  unfold ByteWriter.Write
  by_cases hp : p.length = 0
  · have e : p = [] := List.length_eq_zero.mp hp
    subst e
    simp [literalText, h]
  · obtain ⟨h1, h2, h3, _, h5⟩ := writeLoop_spec p w 0 0 i h
    have hne : p ≠ [] := fun e => hp (by simp [e])
    simp only [hp, if_false]
    refine ⟨h1, h2, ?_, ?_⟩
    · simp only [h3]
    · rw [h5]
      simp only [hne, if_false]
      have : 0 + p.length - 1 + 1 = p.length := by omega
      rw [this]

theorem writeChunks_spec (L : StdLib) (chunks : List (List Byte)) :
    ∀ (w : ByteWriter) (i : Nat), w.c % 12 = i % 12 →
      (w.writeChunks L chunks).out = w.out ++ literalText i chunks.flatten ∧
      (w.writeChunks L chunks).digest = w.digest ++ chunks.flatten := by
  induction chunks with
  | nil =>
    intro w i _
    simp [ByteWriter.writeChunks, literalText]
  | cons p rest ih =>
    intro w i h
    obtain ⟨h1, h2, h3, _⟩ := Write_spec L w p i h
    obtain ⟨g1, g2⟩ := ih (w.Write L p).1 (i + p.length) h2
    have e : ByteWriter.writeChunks L w (p :: rest) =
        ByteWriter.writeChunks L (w.Write L p).1 rest := rfl
    rw [e, g1, g2, h1, h3, List.flatten_cons, literalText_append, String.append_assoc,
      List.append_assoc]
    exact ⟨rfl, rfl⟩

theorem literalText_spaced (bs : List Byte) :
    ∀ i : Nat, 0 < i % 12 → i % 12 + bs.length ≤ 12 → literalText i bs = spacedText bs := by
  induction bs with
  | nil =>
    intro i _ _
    rfl
  | cons b rest ih =>
    intro i h1 h2
    simp only [List.length_cons] at h2
    have hi : ¬ i % 12 = 0 := by omega
    simp only [literalText, spacedText, entryText, hi, if_false]
    cases rest with
    | nil => rfl
    | cons c rest1 =>
      simp only [List.length_cons] at h2
      rw [ih (i + 1) (by omega) (by simp only [List.length_cons]; omega)]

theorem literalText_line (j : Nat) (line : List Byte) (h0 : 0 < line.length)
    (h12 : line.length ≤ 12) : literalText (12 * j) line = lineText line := by
  cases line with
  | nil => simp at h0
  | cons b rest =>
    simp only [List.length_cons] at h12
    have hj : (12 * j) % 12 = 0 := Nat.mul_mod_right 12 j
    simp only [literalText, lineText, entryText, hj, if_true]
    cases rest with
    | nil => rfl
    | cons c rest1 =>
      simp only [List.length_cons] at h12
      rw [literalText_spaced (c :: rest1) (12 * j + 1) (by omega)
        (by simp only [List.length_cons]; omega)]

/-- C9: every `Write` returns the length of its argument and a nil error, and leaves
the writer as it is when the argument is empty; after any sequence of `Write` calls
on a writer that starts with `c = 0` and a fresh digest, the text added to the
underlying writer is, for the bytes of all the arguments in order, the separator
(a new line and a tab where the index is a multiple of twelve, a space elsewhere),
`0x`, the two hexadecimal digits of the byte and a comma, whatever the division into
calls, and the bytes fed to the digest are those bytes in order.  In that text twelve
bytes from an index that is a multiple of twelve make one full line, after which the
next line starts, and a last group of one to twelve bytes makes one line. -/
theorem ByteWriter_Write_sequence (L : StdLib) (out : String) (hashed : List Byte)
    (chunks : List (List Byte)) :
    (∀ (w : ByteWriter) (p : List Byte),
      (w.Write L p).2 = (p.length, none) ∧ (p = [] → (w.Write L p) = (w, 0, none))) ∧
    (ByteWriter.writeChunks L ⟨out, 0, [], hashed⟩ chunks).out =
      out ++ literalText 0 chunks.flatten ∧
    (ByteWriter.writeChunks L ⟨out, 0, [], hashed⟩ chunks).digest = chunks.flatten ∧
    (∀ chunks1 : List (List Byte), chunks1.flatten = chunks.flatten →
      (ByteWriter.writeChunks L ⟨out, 0, [], hashed⟩ chunks1).out =
        (ByteWriter.writeChunks L ⟨out, 0, [], hashed⟩ chunks).out) ∧
    (∀ (j : Nat) (line rest : List Byte), line.length = 12 →
      literalText (12 * j) (line ++ rest) = lineText line ++ literalText (12 * (j + 1)) rest) ∧
    (∀ (j : Nat) (line : List Byte), 0 < line.length → line.length ≤ 12 →
      literalText (12 * j) line = lineText line) := by
  have key : ∀ cs : List (List Byte),
      (ByteWriter.writeChunks L ⟨out, 0, [], hashed⟩ cs).out =
        out ++ literalText 0 cs.flatten ∧
      (ByteWriter.writeChunks L ⟨out, 0, [], hashed⟩ cs).digest = cs.flatten := by
    intro cs
    have h := writeChunks_spec L cs ⟨out, 0, [], hashed⟩ 0 rfl
    simpa using h
  refine ⟨?_, (key chunks).1, (key chunks).2, ?_, ?_, ?_⟩
  · intro w p
    refine ⟨(Write_spec L w p w.c rfl).2.2.2, ?_⟩
    intro hp
    subst hp
    rfl
  · intro chunks1 h1
    rw [(key chunks1).1, (key chunks).1, h1]
  · intro j line rest hl
    rw [literalText_append, literalText_line j line (by omega) (by omega), hl]
    rfl
  · intro j line h0 h12
    exact literalText_line j line h0 h12

/-- The witness of C9: fourteen bytes written in calls of five, none and nine bytes
give a line of twelve literals and a line of two. -/
theorem ByteWriter_Write_sequence_witness :
    (ByteWriter.writeChunks plainLib ⟨"", 0, [], []⟩
      [[1, 2, 3, 4, 5], [], [6, 7, 8, 9, 10, 11, 12, 13, 14]]).out =
      "\n\t0x01, 0x02, 0x03, 0x04, 0x05, 0x06, 0x07, 0x08, 0x09, 0x0a, 0x0b, 0x0c," ++
        "\n\t0x0d, 0x0e," :=
  have h := ByteWriter_Write_sequence plainLib "" []
    [[1, 2, 3, 4, 5], [], [6, 7, 8, 9, 10, 11, 12, 13, 14]]
  have h1 := h.2.2.2.2.1 0 [1, 2, 3, 4, 5, 6, 7, 8, 9, 10, 11, 12] [13, 14] rfl
  have h2 := h.2.2.2.2.2 1 [13, 14] (by decide) (by decide)
  h.2.1.trans (by
    show "" ++ literalText (12 * 0) ([1, 2, 3, 4, 5, 6, 7, 8, 9, 10, 11, 12] ++ [13, 14]) = _
    rw [h1, h2]
    decide)

/-! ## The stored payload -/

theorem hexValue_hexDigit : ∀ n : Fin 16, hexValue (hexDigit n.val) = some n.val := by
  decide

theorem entryText_data (i : Nat) (b : Byte) :
    (entryText i b).data =
      (if i % 12 = 0 then ['\n', '\t'] else [' ']) ++
        '0' :: 'x' :: hexDigit (b.val / 16) :: hexDigit (b.val % 16) :: [','] := by
  unfold entryText hexByte
  by_cases h : i % 12 = 0 <;> simp [h, String.data_append]

theorem readByteLiterals_blank (r : Char) (rest : List Char)
    (h : r = ' ' ∨ r = '\n' ∨ r = '\t') :
    readByteLiterals (r :: rest) = readByteLiterals rest := by
  rcases h with h | h | h <;> subst h <;> simp [readByteLiterals]

theorem readByteLiterals_entry (b : Byte) (rest : List Char) :
    readByteLiterals ('0' :: 'x' :: hexDigit (b.val / 16) :: hexDigit (b.val % 16) :: ',' :: rest)
      = (readByteLiterals rest).map (fun bs => b :: bs) := by
  have h1 := hexValue_hexDigit ⟨b.val / 16, by omega⟩
  have h2 := hexValue_hexDigit ⟨b.val % 16, by omega⟩
  have hb : (Fin.ofNat (16 * (b.val / 16) + b.val % 16) : Byte) = b := by
    apply Fin.ext
    simp only [Fin.ofNat, Fin.val_mk]
    omega
  simp only at h1 h2
  simp only [readByteLiterals, Char.reduceEq, or_self, if_false, h1, h2, hb]
  cases readByteLiterals rest with
  | none => simp
  | some bs => simpa using hb

theorem readByteLiterals_literalText (bs : List Byte) :
    ∀ i : Nat, readByteLiterals (literalText i bs).data = some bs := by
  induction bs with
  | nil =>
    intro i
    rfl
  | cons b rest ih =>
    intro i
    simp only [literalText, String.data_append, entryText_data]
    by_cases h : i % 12 = 0
    · simp only [h, if_true, List.cons_append, List.nil_append]
      rw [readByteLiterals_blank _ _ (by simp), readByteLiterals_blank _ _ (by simp),
        readByteLiterals_entry, ih]
      rfl
    · simp only [h, if_false, List.cons_append, List.nil_append]
      rw [readByteLiterals_blank _ _ (by simp), readByteLiterals_entry, ih]
      rfl


theorem readFileEntry_out (L : StdLib) (input filename : String) (content : List Byte)
    (st : GenState) :
    (readFileEntry L input filename content st).out =
      st.out ++ ("var " ++ safeFunctionName L (relativePathOf input filename) ++ " = []byte\x7b")
        ++ literalText 0 (L.gzipWrite gzipBestCompression content).flatten ++ "\n\x7d\n" := by
  have h := (writeChunks_spec L (L.gzipWrite gzipBestCompression content)
    ⟨st.out ++ ("var " ++ safeFunctionName L (relativePathOf input filename) ++ " = []byte\x7b"),
      0, [], []⟩ 0 rfl).1
  simp only [readFileEntry]
  rw [h]

theorem readFileEntry_files (L : StdLib) (input filename : String) (content : List Byte)
    (st : GenState) :
    (readFileEntry L input filename content st).files =
      st.files.set (relativePathOf input filename)
        (hexEncodeToString (L.md5Sum (L.gzipWrite gzipBestCompression content).flatten)) := by
  have h := (writeChunks_spec L (L.gzipWrite gzipBestCompression content)
    ⟨st.out ++ ("var " ++ safeFunctionName L (relativePathOf input filename) ++ " = []byte\x7b"),
      0, [], []⟩ 0 rfl).2
  simp only [readFileEntry, digestSum, List.nil_append]
  rw [h]
  rfl

/-- C3: the text that `recursiveRead` writes for a file is the opening of the
constant, the byte literals of the payload and the closing; read as a Go byte slice
the literals are the bytes the gzip writer emitted into the `ByteWriter`, and the gzip
reader turns those into the content of the file. -/
theorem stored_payload_roundtrip (L : StdLib) (input filename : String)
    (content : List Byte) (st : GenState) :
    (readFileEntry L input filename content st).out =
      st.out ++ ("var " ++ safeFunctionName L (relativePathOf input filename) ++ " = []byte\x7b")
        ++ literalText 0 (L.gzipWrite gzipBestCompression content).flatten ++ "\n\x7d\n" ∧
    readByteLiterals (literalText 0 (L.gzipWrite gzipBestCompression content).flatten).data =
      some (L.gzipWrite gzipBestCompression content).flatten ∧
    (readByteLiterals (literalText 0 (L.gzipWrite gzipBestCompression content).flatten).data).bind
      L.gunzip = some content := by
  have hr := readByteLiterals_literalText (L.gzipWrite gzipBestCompression content).flatten 0
  refine ⟨readFileEntry_out L input filename content st, hr, ?_⟩
  rw [hr]
  exact L.gunzip_gzipWrite gzipBestCompression content

/-! ## The development resolver -/

theorem hexEncodeToString_length (src : List Byte) :
    (hexEncodeToString src).length = 2 * src.length := by
  unfold hexEncodeToString
  show (src.flatMap hexByte).length = 2 * src.length
  induction src with
  | nil => rfl
  | cons b rest ih =>
    simp only [List.flatMap_cons, List.length_append, ih, hexByte, List.length_cons,
      List.length_nil]
    omega

theorem hexDigit_mem (n : Nat) (h : n < 16) : hexDigit n ∈ "0123456789abcdef".data := by
  have : ∀ k : Fin 16, hexDigit k.val ∈ "0123456789abcdef".data := by decide
  exact this ⟨n, h⟩

theorem hexEncodeToString_chars (src : List Byte) :
    ∀ r ∈ (hexEncodeToString src).data, r ∈ "0123456789abcdef".data := by
  intro r hr
  unfold hexEncodeToString at hr
  simp only [List.mem_flatMap, hexByte, List.mem_cons, List.mem_singleton,
    List.not_mem_nil, or_false] at hr
  obtain ⟨b, _, h | h⟩ := hr
  · rw [h]
    exact hexDigit_mem _ (by omega)
  · rw [h]
    exact hexDigit_mem _ (by omega)

theorem hasSuffix_append_iff (base s suffix : String)
    (h : suffix.data.length ≤ s.data.length) :
    stringsHasSuffix (base ++ s) suffix = stringsHasSuffix s suffix := by
  unfold stringsHasSuffix
  rw [Bool.eq_iff_iff, List.isSuffixOf_iff_suffix, List.isSuffixOf_iff_suffix,
    String.data_append]
  constructor
  · intro h1
    exact List.suffix_of_suffix_length_le h1 (List.suffix_append _ _) h
  · intro h1
    exact h1.trans (List.suffix_append _ _)

theorem devContentType_index (base : String) :
    Dev.contentType (base ++ "index.html") = "text/html" := by
  unfold Dev.contentType
  rw [hasSuffix_append_iff base _ ".png" (by decide),
    hasSuffix_append_iff base _ ".svg" (by decide),
    hasSuffix_append_iff base _ ".css" (by decide),
    hasSuffix_append_iff base _ ".js" (by decide),
    hasSuffix_append_iff base _ ".eot" (by decide),
    hasSuffix_append_iff base _ ".ttf" (by decide),
    hasSuffix_append_iff base _ ".woff" (by decide),
    hasSuffix_append_iff base _ ".woff2" (by decide),
    hasSuffix_append_iff base _ ".html" (by decide)]
  rfl

theorem Asset_root (L : StdLib) (fs : FileSystem) (base : String) (c : List Byte)
    (h : fs (base ++ "index.html") = some c) :
    Dev.Asset L fs base "/" =
      (some (gzipBuffer L c), hexEncodeToString ((L.md5Sum (gzipBuffer L c)).drop 1),
        "text/html") := by
  simp [Dev.Asset, ioutilReadFile, h, Slice.bytes, devContentType_index]


theorem Asset_fallback (L : StdLib) (fs : FileSystem) (base path : String) (c : List Byte)
    (h : fs (base ++ "index.html") = some c) (hp : fs (base ++ path) = none) :
    Dev.Asset L fs base path =
      (some (gzipBuffer L c), hexEncodeToString ((L.md5Sum (gzipBuffer L c)).drop 1),
        "text/html") := by
  by_cases hr : path = "/"
  · subst hr
    exact Asset_root L fs base c h
  · simp [Dev.Asset, ioutilReadFile, h, hp, hr, Slice.bytes, devContentType_index]

theorem Asset_found (L : StdLib) (fs : FileSystem) (base path : String) (c : List Byte)
    (hr : path ≠ "/") (hp : fs (base ++ path) = some c) :
    Dev.Asset L fs base path =
      (some (gzipBuffer L c), hexEncodeToString ((L.md5Sum (gzipBuffer L c)).drop 1),
        Dev.contentType (base ++ path)) := by
  simp [Dev.Asset, ioutilReadFile, hp, hr, Slice.bytes]

/-- C4: the development resolver always returns a triple with a payload (it has no
error result); when neither the requested file (`base+path`, or `base+"index.html"`
for the path `/`) nor the substitute `base+"index.html"` can be read, the triple is the
text `File Not Found ` followed by `base+"index.html"`, the empty fingerprint and
`text/html`. -/
theorem Asset_never_fails (L : StdLib) (fs : FileSystem) (base path : String) :
    (∃ data hash mime, Dev.Asset L fs base path = (some data, hash, mime)) ∧
    (fs (if path = "/" then base ++ "index.html" else base ++ path) = none →
      fs (base ++ "index.html") = none →
      Dev.Asset L fs base path =
        (some (stringBytes ("File Not Found " ++ (base ++ "index.html"))), "", "text/html")) := by
  have nf : fs (if path = "/" then base ++ "index.html" else base ++ path) = none →
      fs (base ++ "index.html") = none →
      Dev.Asset L fs base path =
        (some (stringBytes ("File Not Found " ++ (base ++ "index.html"))), "", "text/html") := by
    intro h1 h2
    by_cases hr : path = "/"
    · simp [Dev.Asset, ioutilReadFile, h2, hr]
    · simp only [hr, if_false] at h1
      simp [Dev.Asset, ioutilReadFile, h1, h2, hr]
  refine ⟨?_, nf⟩
  cases hi : fs (base ++ "index.html") with
  | some c =>
    by_cases hr : path = "/"
    · subst hr
      exact ⟨_, _, _, Asset_root L fs base c hi⟩
    · cases hp : fs (base ++ path) with
      | some d => exact ⟨_, _, _, Asset_found L fs base path d hr hp⟩
      | none => exact ⟨_, _, _, Asset_fallback L fs base path c hi hp⟩
  | none =>
    by_cases hr : path = "/"
    · exact ⟨_, _, _, nf (by simp [hr, hi]) hi⟩
    · cases hp : fs (base ++ path) with
      | some d => exact ⟨_, _, _, Asset_found L fs base path d hr hp⟩
      | none => exact ⟨_, _, _, nf (by simp [hr, hp]) hi⟩

/-- The witness of C4: a file system with no readable file, base `pub/`, path `/x.js`. -/
theorem Asset_never_fails_witness :
    Dev.Asset plainLib (fun _ => none) "pub/" "/x.js" =
      (some (stringBytes "File Not Found pub/index.html"), "", "text/html") :=
  (Asset_never_fails plainLib (fun _ => none) "pub/" "/x.js").2 rfl rfl

/-- C5: when `base+"index.html"` can be read with content `c`, then for the path `/`
and for every path `p` such that `base+p` cannot be read, `Asset(base, p)` is
`Asset(base, "/")`: the payload is the compressed `c`, that is the bytes the gzip
writer of the default level emits for `c`, which the gzip reader turns back into `c`;
the fingerprint is the one computed from that payload, and the content type is
`text/html`, that of the substituted file name. -/
theorem Asset_index_substitution (L : StdLib) (fs : FileSystem) (base p : String)
    (c : List Byte) (h : fs (base ++ "index.html") = some c)
    (hp : p = "/" ∨ fs (base ++ p) = none) :
    Dev.Asset L fs base p = Dev.Asset L fs base "/" ∧
    Dev.Asset L fs base p =
      (some (L.gzipWrite gzipDefaultCompression c).flatten,
        hexEncodeToString
          ((L.md5Sum (L.gzipWrite gzipDefaultCompression c).flatten).drop 1),
        "text/html") ∧
    (Dev.Asset L fs base p).1.bind L.gunzip = some c := by
  have h0 := Asset_root L fs base c h
  have h1 : Dev.Asset L fs base p =
      (some (L.gzipWrite gzipDefaultCompression c).flatten,
        hexEncodeToString
          ((L.md5Sum (L.gzipWrite gzipDefaultCompression c).flatten).drop 1),
        "text/html") := by
    rcases hp with hp | hp
    · subst hp
      exact h0
    · exact Asset_fallback L fs base p c h hp
  refine ⟨h1.trans h0.symm, h1, ?_⟩
  rw [h1]
  exact L.gunzip_gzipWrite gzipDefaultCompression c

/-- The witness of C5: the base `pub/` holds `index.html` only, with the content
`hi`, and `/x.js` is asked for. -/
theorem Asset_index_substitution_witness :
    Dev.Asset plainLib (fun n => if n = "pub/index.html" then some [104, 105] else none)
        "pub/" "/x.js" =
      (some [0x1f, 0x8b, 104, 105], "000000000000000000000000000000", "text/html") ∧
    (Dev.Asset plainLib (fun n => if n = "pub/index.html" then some [104, 105] else none)
        "pub/" "/x.js").1.bind plainLib.gunzip = some [104, 105] :=
  have w := Asset_index_substitution plainLib
    (fun n => if n = "pub/index.html" then some [104, 105] else none) "pub/" "/x.js"
    [104, 105] (by decide) (Or.inr (by decide))
  ⟨w.2.1.trans (by decide), w.2.2⟩

/-- The base of the example in the comment of `Asset`, `ui/myproject/src/public`, has
no slash at its end: with such a base the substitute is looked up next to the folder,
not in it. -/
theorem Asset_base_without_slash :
    Dev.Asset plainLib (fun n => if n = "pub/index.html" then some [104, 105] else none)
        "pub" "/" =
      (some (stringBytes "File Not Found pubindex.html"), "", "text/html") := by
  decide

/-- C8: when the development resolver finds a file, directly or through the
substitution of `index.html`, the fingerprint it returns is the hexadecimal encoding
of the MD5 digest of the returned payload without the first byte of the digest: a
function of the payload alone, of thirty characters, all of them lower-case
hexadecimal digits.  The resolver of `examples/assets/main.go` computes the
fingerprint of a file it finds in the same way. -/
theorem Asset_fingerprint (L : StdLib) (fs : FileSystem) (base path : String)
    (h : fs (if path = "/" then base ++ "index.html" else base ++ path) ≠ none ∨
      fs (base ++ "index.html") ≠ none) :
    (Dev.Asset L fs base path).2.1 =
      hexEncodeToString ((L.md5Sum (Dev.Asset L fs base path).1.bytes).drop 1) ∧
    (Dev.Asset L fs base path).2.1.length = 30 ∧
    (∀ r ∈ (Dev.Asset L fs base path).2.1.data, r ∈ "0123456789abcdef".data) ∧
    (fs (base ++ path) ≠ none →
      (Example.Asset L fs base path).2.1 =
        hexEncodeToString ((L.md5Sum (Example.Asset L fs base path).1.bytes).drop 1) ∧
      (Example.Asset L fs base path).2.1.length = 30) := by
  have len : ∀ d : List Byte, (hexEncodeToString ((L.md5Sum d).drop 1)).length = 30 := by
    intro d
    rw [hexEncodeToString_length, List.length_drop, L.md5Sum_length]
  have key : ∃ d : List Byte, Dev.Asset L fs base path =
      (some d, hexEncodeToString ((L.md5Sum d).drop 1), (Dev.Asset L fs base path).2.2) := by
    by_cases hr : path = "/"
    · subst hr
      simp only [if_true, or_self] at h
      obtain ⟨c, hc⟩ := Option.ne_none_iff_exists'.mp h
      exact ⟨_, by rw [Asset_root L fs base c hc]⟩
    · simp only [hr, if_false] at h
      cases hp : fs (base ++ path) with
      | some d => exact ⟨_, by rw [Asset_found L fs base path d hr hp]⟩
      | none =>
        rw [hp] at h
        simp only [ne_eq, not_true_eq_false, false_or] at h
        obtain ⟨c, hc⟩ := Option.ne_none_iff_exists'.mp h
        exact ⟨_, by rw [Asset_fallback L fs base path c hc hp]⟩
  have ex : fs (base ++ path) ≠ none →
      (Example.Asset L fs base path).2.1 =
        hexEncodeToString ((L.md5Sum (Example.Asset L fs base path).1.bytes).drop 1) ∧
      (Example.Asset L fs base path).2.1.length = 30 := by
    intro hp
    obtain ⟨c, hc⟩ := Option.ne_none_iff_exists'.mp hp
    have e : Example.Asset L fs base path =
        (some (gzipBuffer L c), hexEncodeToString ((L.md5Sum (gzipBuffer L c)).drop 1),
          Example.contentType (base ++ path), false) := by
      simp [Example.Asset, ioutilReadFile, hc, Slice.bytes]
    rw [e]
    exact ⟨rfl, len _⟩
  obtain ⟨d, hd⟩ := key
  rw [hd]
  exact ⟨rfl, len d, hexEncodeToString_chars _, ex⟩

/-- The witness of C8: the base `pub/` holds `app.js`, which is asked for. -/
theorem Asset_fingerprint_witness :
    (Dev.Asset plainLib (fun n => if n = "pub/app.js" then some [1, 2, 3] else none)
      "pub" "/app.js").2.1.length = 30 :=
  (Asset_fingerprint plainLib (fun n => if n = "pub/app.js" then some [1, 2, 3] else none)
    "pub" "/app.js" (Or.inl (by decide))).2.1


/-! ## The table of the generator -/

theorem GoMap_set_values (P : String → Prop) (m : GoMap) (k v : String)
    (hm : ∀ kv ∈ m, P kv.2) (hv : P v) : ∀ kv ∈ m.set k v, P kv.2 := by
  induction m with
  | nil =>
    intro kv hkv
    simp only [GoMap.set, List.mem_singleton] at hkv
    rw [hkv]
    exact hv
  | cons e rest ih =>
    obtain ⟨k1, v1⟩ := e
    intro kv hkv
    simp only [GoMap.set] at hkv
    by_cases hk : k1 = k
    · simp only [hk, if_true, List.mem_cons] at hkv
      rcases hkv with hkv | hkv
      · rw [hkv]
        exact hv
      · exact hm kv (List.mem_cons_of_mem _ hkv)
    · simp only [hk, if_false, List.mem_cons] at hkv
      rcases hkv with hkv | hkv
      · rw [hkv]
        exact hm (k1, v1) (List.mem_cons_self _ _)
      · exact ih (fun kv h => hm kv (List.mem_cons_of_mem _ h)) kv hkv

theorem readEntries_invariant (L : StdLib) (input : String) (P : GenState → Prop)
    (hstep : ∀ filename content st, P st → P (readFileEntry L input filename content st)) :
    ∀ (es : Entries) (folder : String) (st st1 : GenState),
      P st → readEntries L input folder es st = .ok st1 → P st1
  | .nil, _, st, st1, hP, h => by
    simp only [readEntries, Except.ok.injEq] at h
    rw [← h]
    exact hP
  | .cons name (.file content) rest, folder, st, st1, hP, h => by
    simp only [readEntries] at h
    exact readEntries_invariant L input P hstep rest folder _ st1 (hstep _ _ _ hP) h
  | .cons name (.dir entries) rest, folder, st, st1, hP, h => by
    simp only [readEntries] at h
    cases hd : readEntries L input (pathJoin [folder, name]) entries st with
    | error e =>
      rw [hd] at h
      cases h
    | ok st2 =>
      rw [hd] at h
      have h2 := readEntries_invariant L input P hstep entries _ st st2 hP hd
      exact readEntries_invariant L input P hstep rest folder st2 st1 h2 h
  | .cons name .noOpen rest, folder, st, st1, hP, h => by
    simp only [readEntries] at h
    cases h
  | .cons name .noReadDir rest, folder, st, st1, hP, h => by
    simp only [readEntries] at h
    cases h

theorem recursiveRead_fingerprints (L : StdLib) (input folder : String)
    (listing : Option Entries) (out : String) (st : GenState)
    (h : recursiveRead L input folder listing ⟨out, [], []⟩ = .ok st) :
    ∀ kv ∈ st.files, ∃ d : List Byte, kv.2 = hexEncodeToString (L.md5Sum d) := by
  cases listing with
  | none => cases h
  | some entries =>
    simp only [recursiveRead] at h
    refine readEntries_invariant L input
      (fun s => ∀ kv ∈ s.files, ∃ d : List Byte, kv.2 = hexEncodeToString (L.md5Sum d))
      ?_ entries folder ⟨out, [], []⟩ st ?_ h
    · intro filename content s hs
      simp only [readFileEntry]
      exact GoMap_set_values (fun v => ∃ d : List Byte, v = hexEncodeToString (L.md5Sum d))
        _ _ _ hs ⟨_, rfl⟩
    · intro kv hkv
      cases hkv


/-- C7: for a buffer of 34 random bytes the token of `randStr` has 34 characters, the
one at index `k` being `"0123456789abcdef"[b_k mod 16]`; every fingerprint in the
table that `recursiveRead` builds from empty maps is the hexadecimal encoding of a
16-byte MD5 digest, of 32 characters, so the token differs from each of them. -/
theorem randStr_token_fresh (L : StdLib) (input folder : String) (listing : Option Entries)
    (out : String) (st : GenState) (rnd : List Byte) (hr : rnd.length = 34)
    (h : recursiveRead L input folder listing ⟨out, [], []⟩ = .ok st) :
    (randStr rnd).length = 34 ∧
    (∀ (k : Nat) (b : Byte), rnd[k]? = some b →
      (randStr rnd).data[k]? = "0123456789abcdef".data[b.val % 16]?) ∧
    ∀ kv ∈ st.files, kv.2.length = 32 ∧ randStr rnd ≠ kv.2 := by
  have hlen : (randStr rnd).length = 34 := by
    show (List.map _ rnd).length = 34
    rw [List.length_map, hr]
  refine ⟨hlen, ?_, ?_⟩
  · intro k b hk
    show (List.map _ rnd)[k]? = _
    rw [List.getElem?_map, hk]
    have hb : b.val % 16 < 16 := Nat.mod_lt _ (by decide)
    have : ∀ n : Fin 16, some ("0123456789abcdef".data.getD n.val '0') =
        "0123456789abcdef".data[n.val]? := by decide
    exact this ⟨b.val % 16, hb⟩
  · intro kv hkv
    obtain ⟨d, hd⟩ := recursiveRead_fingerprints L input folder listing out st h kv hkv
    have h32 : kv.2.length = 32 := by
      rw [hd, hexEncodeToString_length, L.md5Sum_length]
    refine ⟨h32, ?_⟩
    intro e
    rw [← e, hlen] at h32
    omega

/-- The witness of C7: the root `pub` holds `index.html`, the random bytes are 34
sevens. -/
theorem randStr_token_fresh_witness :
    (randStr (List.replicate 34 7)).length = 34 ∧
    ∀ kv ∈ (readFileEntry plainLib "pub" (pathJoin ["pub", "index.html"]) [60, 112, 62]
        ⟨"", [], []⟩).files,
      kv.2.length = 32 ∧ randStr (List.replicate 34 7) ≠ kv.2 :=
  have h := randStr_token_fresh plainLib "pub" "pub"
    (some (.cons "index.html" (.file [60, 112, 62]) .nil)) "" _ (List.replicate 34 7)
    (List.length_replicate 34 7) rfl
  ⟨h.1, h.2.2⟩

/-! ## The dispatch written by `main` -/

theorem expect_append (beginning text : List Char) :
    expect beginning (beginning ++ text) = some text := by
  induction beginning with
  | nil => cases text <;> rfl
  | cons e es ih => simp [expect, ih]

theorem readUntil_append (stop : Char) (before after : List Char) (h : stop ∉ before) :
    readUntil stop (before ++ stop :: after) = some (before, after) := by
  induction before with
  | nil => simp [readUntil]
  | cons r rest ih =>
    have hr : ¬ r = stop := fun e => h (by simp [e])
    have h1 : stop ∉ rest := fun e => h (List.mem_cons_of_mem _ e)
    simp [readUntil, hr, ih h1]

theorem stringBytes_cons (r : Char) (rest : List Char) :
    stringBytes ⟨r :: rest⟩ = stringBytes ⟨[r]⟩ ++ stringBytes ⟨rest⟩ := by
  simp [stringBytes]

theorem readGoString_plain (value after : List Char)
    (h : ∀ r ∈ value, r ≠ '"' ∧ r ≠ '\\' ∧ r ≠ '\n') :
    readGoString 0 (value ++ '"' :: after) = some (stringBytes ⟨value⟩, after) := by
  induction value with
  | nil => simp [readGoString, stringBytes]
  | cons r rest ih =>
    obtain ⟨h1, h2, h3⟩ := h r (List.mem_cons_self _ _)
    have ih1 := ih (fun x hx => h x (List.mem_cons_of_mem _ hx))
    rw [stringBytes_cons]
    simp [readGoString, h1, h2, h3, ih1]

theorem readReturn_written (payload hash mime after : List Char) (hp : ',' ∉ payload)
    (hh : ∀ r ∈ hash, r ≠ '"' ∧ r ≠ '\\' ∧ r ≠ '\n')
    (hm : ∀ r ∈ mime, r ≠ '"' ∧ r ≠ '\\' ∧ r ≠ '\n') :
    readReturn (payload ++ ',' :: (hashOpen ++ (hash ++ '"' :: (mimeOpen ++
      (mime ++ '"' :: after))))) =
      some (⟨⟨payload⟩, stringBytes ⟨hash⟩, stringBytes ⟨mime⟩⟩, after) := by
  unfold readReturn
  rw [readUntil_append ',' payload _ hp]
  simp only [expect_append, readGoString_plain _ _ hh, readGoString_plain _ _ hm]

theorem caseText_data (c : String × Branch) :
    (caseText c).data =
      caseOpen ++ (c.1.data ++ '"' :: (caseReturn ++ (c.2.payload.data ++
        ',' :: (hashOpen ++ (c.2.hash.data ++ '"' :: (mimeOpen ++
          (c.2.mime.data ++ '"' :: caseEnd))))))) := by
  simp only [caseText, String.data_append, List.append_assoc]
  rfl

theorem defaultText_data (d : Branch) :
    (defaultText d).data =
      defaultOpen ++ (d.payload.data ++ ',' :: (hashOpen ++
        (d.hash.data ++ '"' :: (mimeOpen ++ ("text/html".data ++ '"' :: switchEnd))))) := by
  simp only [defaultText, String.data_append, List.append_assoc]
  rfl

theorem dispatchText_data (cases : List (String × Branch)) (d : Branch) :
    (dispatchText cases d).data =
      cases.flatMap (fun c => (caseText c).data) ++ (defaultText d).data := by
  have key : ∀ (cs : List (String × Branch)) (init : String),
      (cs.foldl (fun out c => out ++ caseText c) init).data =
        init.data ++ cs.flatMap (fun c => (caseText c).data) := by
    intro cs
    induction cs with
    | nil =>
      intro init
      simp
    | cons c rest ih =>
      intro init
      simp [List.foldl_cons, ih, String.data_append, List.append_assoc]
  simp only [dispatchText, String.data_append, key]
  rfl

theorem readSwitch_written (d : Branch) (hdp : ',' ∉ d.payload.data)
    (hdh : ∀ r ∈ d.hash.data, r ≠ '"' ∧ r ≠ '\\' ∧ r ≠ '\n') :
    ∀ (cases : List (String × Branch)) (fuel : Nat), cases.length < fuel →
      (∀ c ∈ cases, (∀ r ∈ c.1.data, r ≠ '"' ∧ r ≠ '\\' ∧ r ≠ '\n') ∧
        ',' ∉ c.2.payload.data ∧ (∀ r ∈ c.2.hash.data, r ≠ '"' ∧ r ≠ '\\' ∧ r ≠ '\n') ∧
        (∀ r ∈ c.2.mime.data, r ≠ '"' ∧ r ≠ '\\' ∧ r ≠ '\n')) →
      readSwitch fuel (cases.flatMap (fun c => (caseText c).data) ++ (defaultText d).data) =
        some (cases.map (fun c => (stringBytes c.1,
            (⟨c.2.payload, stringBytes c.2.hash, stringBytes c.2.mime⟩ : Returned))),
          ⟨d.payload, stringBytes d.hash, stringBytes "text/html"⟩) := by
  intro cases
  induction cases with
  | nil =>
    intro fuel hf _
    obtain ⟨n, rfl⟩ : ∃ n, fuel = n + 1 := ⟨fuel - 1, by simp at hf; omega⟩
    have e1 : ∀ t, expect caseOpen (defaultOpen ++ t) = none := fun _ => rfl
    have e2 : expect switchEnd switchEnd = some [] := by
      have h := expect_append switchEnd []
      rwa [List.append_nil] at h
    have hm : ∀ r ∈ "text/html".data, r ≠ '"' ∧ r ≠ '\\' ∧ r ≠ '\n' := by decide
    simp only [List.flatMap_nil, List.nil_append, defaultText_data, readSwitch, e1,
      expect_append, readReturn_written _ _ _ _ hdp hdh hm, e2, List.map_nil]
  | cons c rest ih =>
    intro fuel hf hgood
    obtain ⟨n, rfl⟩ : ∃ n, fuel = n + 1 := ⟨fuel - 1, by simp at hf; omega⟩
    obtain ⟨hk, hp, hh, hm⟩ := hgood c (List.mem_cons_self _ _)
    have ih1 := ih n (by simp at hf; omega) (fun x hx => hgood x (List.mem_cons_of_mem _ hx))
    rw [List.flatMap_cons, caseText_data c]
    simp only [List.append_assoc, List.cons_append, readSwitch, expect_append,
      readGoString_plain _ _ hk, readReturn_written _ _ _ _ hp hh hm, ih1, List.map_cons]

theorem main_ok (L : StdLib) (input output tag : String) (created : Bool)
    (listing : Option Entries) (range : GoMap → GoMap) (rnd : List Byte) (text : String)
    (h : main L input output tag created listing range rnd = .ok text) :
    ∃ st, recursiveRead L input input listing ⟨headerText tag, [], []⟩ = .ok st ∧
      text = st.out ++ resolverText input ++
        dispatchText (mainCases L (range st.files) st.filesType)
          (mainDefault st.files (randStr rnd)) := by
  unfold main at h
  by_cases h1 : input = ""
  · simp [h1] at h
  · by_cases h2 : output = ""
    · simp [h1, h2] at h
    · cases created with
      | false => simp [h1, h2] at h
      | true =>
        simp only [h1, h2, if_false, Bool.not_true, Bool.false_eq_true] at h
        cases hr : recursiveRead L input input listing ⟨headerText tag, [], []⟩ with
        | error e =>
          rw [hr] at h
          cases h
        | ok st =>
          rw [hr] at h
          simp only [Except.ok.injEq] at h
          exact ⟨st, rfl, h.symm⟩

/-! ## `safeFunctionName` -/

/-- C10 (names collide): the distinct keys `/app.min.js` and `/app-min.js` both
sanitize to `AppMinJs`, so it is not the case that distinct keys get distinct
names. -/
theorem safeFunctionName_collision :
    "/app.min.js" ≠ "/app-min.js" ∧
    safeFunctionName plainLib "/app.min.js" = "AppMinJs" ∧
    safeFunctionName plainLib "/app-min.js" = "AppMinJs" ∧
    ¬ ∀ (L : StdLib) (p q : String), p ≠ q → p.data.head? = some '/' →
      q.data.head? = some '/' → safeFunctionName L p ≠ safeFunctionName L q :=
  have e1 : safeFunctionName plainLib "/app.min.js" = "AppMinJs" := rfl
  have e2 : safeFunctionName plainLib "/app-min.js" = "AppMinJs" := rfl
  ⟨by decide, e1, e2,
    fun h => h plainLib "/app.min.js" "/app-min.js" (by decide) rfl rfl (e1.trans e2.symm)⟩


theorem toNat_ofNat_upper (n : Nat) (h1 : 97 ≤ n) (h2 : n ≤ 122) :
    (Char.ofNat (n - 32)).toNat = n - 32 := by
  have : ∀ k : Fin 123, 97 ≤ k.val → (Char.ofNat (k.val - 32)).toNat = k.val - 32 := by decide
  exact this ⟨n, by omega⟩ h1

theorem asciiUpper_idem (r : Char) : asciiUpper (asciiUpper r) = asciiUpper r := by
  unfold asciiUpper
  by_cases h : 97 ≤ r.toNat ∧ r.toNat ≤ 122
  · simp only [h, and_self, if_true]
    have e := toNat_ofNat_upper r.toNat h.1 h.2
    have : ¬ (97 ≤ (Char.ofNat (r.toNat - 32)).toNat ∧
        (Char.ofNat (r.toNat - 32)).toNat ≤ 122) := by
      rw [e]
      omega
    rw [if_neg this]
  · simp only [h, if_false]

theorem isWordChar_iff (r : Char) :
    isWordChar r = true ↔
      (48 ≤ r.toNat ∧ r.toNat ≤ 57) ∨ (97 ≤ r.toNat ∧ r.toNat ≤ 122) ∨
        (65 ≤ r.toNat ∧ r.toNat ≤ 90) ∨ r.toNat = 95 := by
  unfold isWordChar
  simp only [Bool.or_eq_true, Bool.and_eq_true, decide_eq_true_eq]
  tauto

theorem isWordChar_asciiUpper (r : Char) : isWordChar (asciiUpper r) = isWordChar r := by
  unfold asciiUpper
  by_cases h : 97 ≤ r.toNat ∧ r.toNat ≤ 122
  · rw [if_pos h]
    have e := toNat_ofNat_upper r.toNat h.1 h.2
    have h1 : isWordChar (Char.ofNat (r.toNat - 32)) = true := by
      rw [isWordChar_iff, e]
      omega
    have h2 : isWordChar r = true := by
      rw [isWordChar_iff]
      omega
    rw [h1, h2]
  · rw [if_neg h]

theorem titleMap_wordFold (L : StdLib) (s : List Char) (hs : ∀ r ∈ s, r.toNat ≤ 0x7F) :
    ∀ prev : Char, ((titleMap L prev s).filter isWordChar).map asciiUpper =
      (s.filter isWordChar).map asciiUpper := by
  induction s with
  | nil =>
    intro prev
    rfl
  | cons r rest ih =>
    intro prev
    have hr : r.toNat ≤ 0x7F := hs r (List.mem_cons_self _ _)
    have ih1 := ih (fun x hx => hs x (List.mem_cons_of_mem _ hx)) r
    cases hsep : isSeparator L prev <;> cases hw : isWordChar r <;>
      simp [titleMap, unicodeToTitle, hr, hsep, hw, List.filter_cons, isWordChar_asciiUpper,
        asciiUpper_idem, ih1]

theorem safeFunctionNameLoop_wordFold (t : List Char) :
    ∀ (toUpper : Bool) (outBytes : List Char),
      (safeFunctionNameLoop t toUpper outBytes).map asciiUpper =
        outBytes.map asciiUpper ++ (t.filter isWordChar).map asciiUpper := by
  induction t with
  | nil =>
    intro toUpper outBytes
    simp [safeFunctionNameLoop]
  | cons r rest ih =>
    intro toUpper outBytes
    simp only [safeFunctionNameLoop, regFuncNameMatch, List.filter_cons]
    by_cases hw : isWordChar r = true
    · simp only [hw, Bool.not_true, if_true, Bool.false_eq_true, if_false, List.map_cons]
      cases toUpper
      · simp only [Bool.false_eq_true, if_false, ih, List.map_append, List.map_cons,
          List.map_nil, List.append_assoc, List.singleton_append]
      · simp only [if_true, ih, List.map_append, List.map_cons, List.map_nil,
          List.append_assoc, List.singleton_append, asciiUpper_idem]
    · have hw1 : isWordChar r = false := by simpa using hw
      simp only [hw1, Bool.not_false, if_true, Bool.false_eq_true, if_false, ih]

theorem safeFunctionName_wordFold (L : StdLib) (name : String)
    (h : ∀ r ∈ name.data, r.toNat ≤ 0x7F) :
    (safeFunctionName L name).data.map asciiUpper = wordFold name := by
  show (safeFunctionNameLoop (titleMap L ' ' name.data) false []).map asciiUpper = _
  rw [safeFunctionNameLoop_wordFold, titleMap_wordFold L name.data h]
  rfl

/-- C10 (as amended): two ASCII keys whose word characters (letters, digits and
underscores, in order, letters compared without regard to case) differ are given
different names by `safeFunctionName`. -/
theorem safeFunctionName_distinct (L : StdLib) (p q : String)
    (hp : ∀ r ∈ p.data, r.toNat ≤ 0x7F) (hq : ∀ r ∈ q.data, r.toNat ≤ 0x7F)
    (h : wordFold p ≠ wordFold q) :
    safeFunctionName L p ≠ safeFunctionName L q := by
  intro e
  apply h
  rw [← safeFunctionName_wordFold L p hp, ← safeFunctionName_wordFold L q hq, e]

/-- The witness of the amended C10: the keys `/app.js` and `/app.css`. -/
theorem safeFunctionName_distinct_witness :
    safeFunctionName plainLib "/app.js" ≠ safeFunctionName plainLib "/app.css" :=
  safeFunctionName_distinct plainLib "/app.js" "/app.css" (by decide) (by decide) (by decide)


/-! ## The dispatch in the text written by `main` -/

theorem resolveSwitch_default (cases : List (List Byte × Returned)) (d : Returned)
    (path : List Byte) (h : ∀ c ∈ cases, c.1 ≠ path) : resolveSwitch cases d path = d := by
  unfold resolveSwitch
  have : cases.find? (fun c => decide (c.1 = path)) = none := by
    rw [List.find?_eq_none]
    intro c hc
    simpa using h c hc
  rw [this]

theorem resolveSwitch_case (cases : List (List Byte × Returned)) (d : Returned)
    (path : List Byte) (h : ∃ c ∈ cases, c.1 = path) :
    ∃ c ∈ cases, c.1 = path ∧ resolveSwitch cases d path = c.2 := by
  unfold resolveSwitch
  cases hf : cases.find? (fun c => decide (c.1 = path)) with
  | none =>
    rw [List.find?_eq_none] at hf
    obtain ⟨c, hc, e⟩ := h
    exact absurd (by simpa using e) (hf c hc)
  | some c =>
    have h1 := List.find?_some hf
    have h2 := List.mem_of_find?_eq_some hf
    exact ⟨c, h2, by simpa using h1, rfl⟩

theorem safeFunctionNameLoop_word (t : List Char) :
    ∀ (toUpper : Bool) (outBytes : List Char), (∀ r ∈ outBytes, isWordChar r = true) →
      ∀ r ∈ safeFunctionNameLoop t toUpper outBytes, isWordChar r = true := by
  induction t with
  | nil =>
    intro toUpper outBytes h
    simpa [safeFunctionNameLoop] using h
  | cons x rest ih =>
    intro toUpper outBytes h
    simp only [safeFunctionNameLoop, regFuncNameMatch]
    by_cases hw : isWordChar x = true
    · cases toUpper
      · simp only [hw, Bool.not_true, Bool.false_eq_true, if_false]
        apply ih
        intro r hr
        rcases List.mem_append.mp hr with hr | hr
        · exact h r hr
        · rw [List.mem_singleton.mp hr]
          exact hw
      · simp only [hw, Bool.not_true, Bool.false_eq_true, if_false, if_true]
        apply ih
        intro r hr
        rcases List.mem_append.mp hr with hr | hr
        · exact h r hr
        · rw [List.mem_singleton.mp hr, isWordChar_asciiUpper]
          exact hw
    · have hw1 : isWordChar x = false := by simpa using hw
      simp only [hw1, Bool.not_false, if_true]
      exact ih true outBytes h

theorem safeFunctionName_no_comma (L : StdLib) (name : String) :
    ',' ∉ (safeFunctionName L name).data := by
  intro h
  have hw := safeFunctionNameLoop_word (titleMap L ' ' name.data) false []
    (fun r hr => by cases hr) ',' h
  revert hw
  decide

theorem hex_plain : ∀ r ∈ "0123456789abcdef".data, r ≠ '"' ∧ r ≠ '\\' ∧ r ≠ '\n' := by
  decide

theorem randStr_plain (rnd : List Byte) :
    ∀ r ∈ (randStr rnd).data, r ≠ '"' ∧ r ≠ '\\' ∧ r ≠ '\n' := by
  intro r hr
  apply hex_plain
  have hr1 : r ∈ rnd.map
      (fun v => "0123456789abcdef".data.getD (v.val % "0123456789abcdef".data.length) '0') := hr
  obtain ⟨v, _, e⟩ := List.mem_map.mp hr1
  have hv : v.val % "0123456789abcdef".data.length < 16 := Nat.mod_lt _ (by decide)
  have : ∀ n : Fin 16, "0123456789abcdef".data.getD n.val '0' ∈ "0123456789abcdef".data := by
    decide
  rw [← e]
  exact this ⟨_, hv⟩

theorem contentType_plain (filename : String) :
    ∀ r ∈ (contentType filename).data, r ≠ '"' ∧ r ≠ '\\' ∧ r ≠ '\n' := by
  unfold contentType
  split_ifs <;> decide


theorem GoMap_get_set (m : GoMap) (k v k1 : String) :
    (m.set k v).get k1 = if k = k1 then some v else m.get k1 := by
  induction m with
  | nil => simp [GoMap.set, GoMap.get]
  | cons e rest ih =>
    obtain ⟨k0, v0⟩ := e
    by_cases h0 : k0 = k
    · subst h0
      by_cases h1 : k0 = k1 <;> simp [GoMap.set, GoMap.get, h1]
    · by_cases h1 : k0 = k1
      · subst h1
        have h2 : ¬ k = k0 := fun e => h0 e.symm
        simp [GoMap.set, GoMap.get, h0, h2]
      · simp [GoMap.set, GoMap.get, h0, h1, ih]

theorem GoMap_keys_set (m : GoMap) (k v : String) :
    (m.set k v).map Prod.fst =
      if k ∈ m.map Prod.fst then m.map Prod.fst else m.map Prod.fst ++ [k] := by
  induction m with
  | nil => simp [GoMap.set]
  | cons e rest ih =>
    obtain ⟨k0, v0⟩ := e
    by_cases h0 : k0 = k
    · subst h0
      simp [GoMap.set]
    · have h1 : ¬ k = k0 := fun e => h0 e.symm
      simp only [GoMap.set, h0, if_false, List.map_cons, ih, List.mem_cons, h1, false_or]
      split_ifs <;> simp

theorem GoMap_set_nodup (m : GoMap) (k v : String) (h : (m.map Prod.fst).Nodup) :
    ((m.set k v).map Prod.fst).Nodup := by
  rw [GoMap_keys_set]
  split_ifs with hk
  · exact h
  · rw [List.nodup_append]
    refine ⟨h, List.nodup_singleton k, ?_⟩
    intro a ha hb
    rw [List.mem_singleton] at hb
    exact hk (hb ▸ ha)

theorem GoMap_get_of_mem (m : GoMap) (k v : String) (hn : (m.map Prod.fst).Nodup)
    (h : (k, v) ∈ m) : m.get k = some v := by
  induction m with
  | nil => cases h
  | cons e rest ih =>
    obtain ⟨k0, v0⟩ := e
    rw [List.map_cons, List.nodup_cons] at hn
    rcases List.mem_cons.mp h with h | h
    · cases h
      simp [GoMap.get]
    · have hne : ¬ k0 = k := by
        intro e
        apply hn.1
        rw [e]
        exact List.mem_map.mpr ⟨(k, v), h, rfl⟩
      simp only [GoMap.get, hne, if_false]
      exact ih hn.2 h

theorem GoMap_get_isSome_of_mem (m : GoMap) (kv : String × String) (h : kv ∈ m) :
    (m.get kv.1).isSome = true := by
  induction m with
  | nil => cases h
  | cons e rest ih =>
    obtain ⟨k0, v0⟩ := e
    by_cases h0 : k0 = kv.1
    · simp [GoMap.get, h0]
    · simp only [GoMap.get, h0, if_false]
      rcases List.mem_cons.mp h with h | h
      · exact absurd (by rw [h]) h0
      · exact ih h

theorem GoMap_mem_of_get (m : GoMap) (k v : String) (h : m.get k = some v) : (k, v) ∈ m := by
  induction m with
  | nil => simp [GoMap.get] at h
  | cons e rest ih =>
    obtain ⟨k0, v0⟩ := e
    by_cases h0 : k0 = k
    · simp only [GoMap.get, h0, if_true, Option.some.injEq] at h
      rw [h0, h]
      exact List.mem_cons_self _ _
    · simp only [GoMap.get, h0, if_false] at h
      exact List.mem_cons_of_mem _ (ih h)

theorem recursiveRead_table (L : StdLib) (input folder : String)
    (listing : Option Entries) (out : String) (st : GenState)
    (h : recursiveRead L input folder listing ⟨out, [], []⟩ = .ok st) :
    (st.files.map Prod.fst).Nodup ∧
    ∀ k, (st.files.get k).isSome = true → st.filesType.get k = some (contentType k) := by
  cases listing with
  | none => cases h
  | some entries =>
    simp only [recursiveRead] at h
    refine readEntries_invariant L input
      (fun s => (s.files.map Prod.fst).Nodup ∧
        ∀ k, (s.files.get k).isSome = true → s.filesType.get k = some (contentType k))
      ?_ entries folder ⟨out, [], []⟩ st ?_ h
    · intro filename content s hs
      simp only [readFileEntry]
      refine ⟨GoMap_set_nodup _ _ _ hs.1, ?_⟩
      intro k hk
      rw [GoMap_get_set] at hk ⊢
      by_cases e : relativePathOf input filename = k
      · simp [e]
      · simp only [e, if_false] at hk ⊢
        exact hs.2 k hk
    · exact ⟨List.nodup_nil, fun k hk => by simp [GoMap.get] at hk⟩


theorem char_toNat_lt (r : Char) : r.toNat < 0x110000 := by
  have h := r.valid
  simp only [UInt32.isValidChar, Nat.isValidChar] at h
  have e : r.toNat = r.val.toNat := rfl
  omega

theorem char_toNat_inj (a b : Char) (h : a.toNat = b.toNat) : a = b := by
  rw [← Char.ofNat_toNat a, ← Char.ofNat_toNat b, h]

theorem stringBytes_single (r : Char) :
    ∃ (b : Byte) (more : List Byte), stringBytes ⟨[r]⟩ = b :: more ∧
      (r.toNat < 128 → b.val = r.toNat ∧ more = []) ∧ (b.val < 128 → r.toNat < 128) := by
  have hv := char_toNat_lt r
  have val : ∀ n : Nat, ((Fin.ofNat n : Byte)).val = n % 256 := fun _ => rfl
  have e : stringBytes ⟨[r]⟩ = (utf8EncodeRune r.toNat).map fun n => Fin.ofNat n := by
    simp [stringBytes]
  rw [e]
  unfold utf8EncodeRune
  by_cases h1 : r.toNat < 0x80
  · refine ⟨Fin.ofNat r.toNat, [], by simp [h1], ?_, fun _ => h1⟩
    intro _
    refine ⟨?_, rfl⟩
    rw [val]
    omega
  · by_cases h2 : r.toNat < 0x800
    · simp only [h1, h2, if_false, if_true, List.map_cons]
      refine ⟨_, _, rfl, fun h => h.elim, ?_⟩
      rw [val]
      omega
    · by_cases h3 : r.toNat < 0x10000
      · simp only [h1, h2, h3, if_false, if_true, List.map_cons]
        refine ⟨_, _, rfl, fun h => h.elim, ?_⟩
        rw [val]
        omega
      · simp only [h1, h2, h3, if_false, List.map_cons]
        refine ⟨_, _, rfl, fun h => h.elim, ?_⟩
        rw [val]
        omega

theorem stringBytes_ascii_inj (s : List Char) (hs : ∀ r ∈ s, r.toNat < 128) :
    ∀ k : List Char, stringBytes ⟨k⟩ = stringBytes ⟨s⟩ → k = s := by
  induction s with
  | nil =>
    intro k hk
    cases k with
    | nil => rfl
    | cons r rest =>
      obtain ⟨b, more, e, _⟩ := stringBytes_single r
      rw [stringBytes_cons, e] at hk
      simp [stringBytes] at hk
  | cons c s1 ih =>
    intro k hk
    have hc := hs c (List.mem_cons_self _ _)
    obtain ⟨bc, mc, ec, hc1, _⟩ := stringBytes_single c
    obtain ⟨hc2, hc3⟩ := hc1 hc
    cases k with
    | nil =>
      rw [stringBytes_cons c, ec] at hk
      simp [stringBytes] at hk
    | cons r rest =>
      obtain ⟨br, mr, er, hr1, hr2⟩ := stringBytes_single r
      rw [stringBytes_cons r, stringBytes_cons c, er, ec, hc3] at hk
      simp only [List.cons_append, List.nil_append, List.cons.injEq] at hk
      obtain ⟨hb, hrest⟩ := hk
      have hr : r.toNat < 128 := hr2 (by rw [hb, hc2]; exact hc)
      obtain ⟨hr3, hr4⟩ := hr1 hr
      rw [hr4, List.nil_append] at hrest
      have e1 : r = c := char_toNat_inj r c (by rw [← hr3, ← hc2, hb])
      rw [e1, ih (fun x hx => hs x (List.mem_cons_of_mem _ hx)) rest hrest]

theorem caseText_length (c : String × Branch) : 0 < (caseText c).data.length := by
  rw [caseText_data, List.length_append]
  have : caseOpen.length = 7 := rfl
  omega

theorem flatMap_caseText_length (cases : List (String × Branch)) :
    cases.length ≤ (cases.flatMap fun c => (caseText c).data).length := by
  induction cases with
  | nil => simp
  | cons c rest ih =>
    have h := caseText_length c
    simp only [List.flatMap_cons, List.length_append, List.length_cons]
    omega

theorem dispatchText_length (cases : List (String × Branch)) (d : Branch) :
    cases.length < (dispatchText cases d).data.length := by
  have h1 := flatMap_caseText_length cases
  have h2 : 0 < (defaultText d).data.length := by
    rw [defaultText_data, List.length_append]
    have : defaultOpen.length = 22 := rfl
    omega
  rw [dispatchText_data, List.length_append]
  omega


theorem mainCases_mem_iff (L : StdLib) (files filesType : GoMap) (c : String × Branch) :
    c ∈ mainCases L files filesType ↔
      ∃ kv ∈ files, c = (kv.1, (⟨safeFunctionName L kv.1, kv.2,
        (filesType.get kv.1).getD ""⟩ : Branch)) := by
  simp only [mainCases, List.mem_map]
  constructor
  · rintro ⟨kv, hkv, e⟩
    exact ⟨kv, hkv, e.symm⟩
  · rintro ⟨kv, hkv, e⟩
    exact ⟨kv, hkv, e.symm⟩

theorem indexFile_no_comma (files : GoMap) : ',' ∉ (indexFile files).data := by
  unfold indexFile
  split_ifs <;> decide

theorem main_switch_read (L : StdLib) (input folder : String) (listing : Option Entries)
    (out : String) (range : GoMap → GoMap) (rnd : List Byte) (st : GenState)
    (hrange : ∀ m, (range m).Perm m)
    (hrun : recursiveRead L input folder listing ⟨out, [], []⟩ = .ok st)
    (hkeys : ∀ kv ∈ st.files, ∀ r ∈ kv.1.data, r ≠ '"' ∧ r ≠ '\\' ∧ r ≠ '\n') :
    readSwitch
        (dispatchText (mainCases L (range st.files) st.filesType)
          (mainDefault st.files (randStr rnd))).data.length
        (dispatchText (mainCases L (range st.files) st.filesType)
          (mainDefault st.files (randStr rnd))).data =
      some ((mainCases L (range st.files) st.filesType).map (fun c => (stringBytes c.1,
          (⟨c.2.payload, stringBytes c.2.hash, stringBytes c.2.mime⟩ : Returned))),
        ⟨indexFile st.files, stringBytes (randStr rnd), stringBytes "text/html"⟩) := by
  have htab := recursiveRead_table L input folder listing out st hrun
  have hfp := recursiveRead_fingerprints L input folder listing out st hrun
  have hgood : ∀ c ∈ mainCases L (range st.files) st.filesType,
      (∀ r ∈ c.1.data, r ≠ '"' ∧ r ≠ '\\' ∧ r ≠ '\n') ∧
      ',' ∉ c.2.payload.data ∧ (∀ r ∈ c.2.hash.data, r ≠ '"' ∧ r ≠ '\\' ∧ r ≠ '\n') ∧
      (∀ r ∈ c.2.mime.data, r ≠ '"' ∧ r ≠ '\\' ∧ r ≠ '\n') := by
    intro c hc
    obtain ⟨kv, hkv, e⟩ := (mainCases_mem_iff L _ _ c).mp hc
    have hkv1 : kv ∈ st.files := (hrange st.files).mem_iff.mp hkv
    subst e
    refine ⟨hkeys kv hkv1, safeFunctionName_no_comma L kv.1, ?_, ?_⟩
    · obtain ⟨d, hd⟩ := hfp kv hkv1
      intro r hr
      have hr1 : r ∈ (hexEncodeToString (L.md5Sum d)).data := by
        rw [← hd]
        exact hr
      exact hex_plain r (hexEncodeToString_chars _ r hr1)
    · have hm := htab.2 kv.1 (GoMap_get_isSome_of_mem st.files kv hkv1)
      intro r hr
      have hr1 : r ∈ (contentType kv.1).data := by
        have e : (st.filesType.get kv.1).getD "" = contentType kv.1 := by rw [hm]; rfl
        rw [← e]
        exact hr
      exact contentType_plain kv.1 r hr1
  have h := readSwitch_written (mainDefault st.files (randStr rnd))
    (indexFile_no_comma st.files) (randStr_plain rnd)
    (mainCases L (range st.files) st.filesType) _
    (dispatchText_length (mainCases L (range st.files) st.filesType)
      (mainDefault st.files (randStr rnd))) hgood
  rw [← dispatchText_data] at h
  exact h


/-- C2 (as amended): for a run of `main` whose table keys hold no double quote, no
backslash and no line break, and whatever the order in which Go ranges over the map,
the text written after the head of `Asset` reads as a `switch` in which every path
that is not a key takes the `default` branch; that branch returns `IndexHtml` when
`/index.html` is a key and the empty byte slice otherwise, the token of `randStr` and
`text/html`.  `IndexHtml` is `safeFunctionName("/index.html")`, the name under which
`recursiveRead` writes the constant of the file with the key `/index.html`; when that
key is in the table, a `case` with the label `/index.html` is written that returns
`IndexHtml`, the stored hash and `text/html`, the path `/index.html` takes it, and a
path that is not a key gets the same payload. -/
theorem main_dispatch_default (L : StdLib) (input output tag : String) (created : Bool)
    (listing : Option Entries) (range : GoMap → GoMap) (rnd : List Byte) (st : GenState)
    (text : String)
    (hrange : ∀ m, (range m).Perm m)
    (hrun : recursiveRead L input input listing ⟨headerText tag, [], []⟩ = .ok st)
    (hmain : main L input output tag created listing range rnd = .ok text)
    (hkeys : ∀ kv ∈ st.files, ∀ r ∈ kv.1.data, r ≠ '"' ∧ r ≠ '\\' ∧ r ≠ '\n') :
    ∃ switchText : String,
      text = st.out ++ resolverText input ++ switchText ∧
      (∀ p : List Byte, (∀ kv ∈ st.files, stringBytes kv.1 ≠ p) →
        writtenAsset switchText p =
          some ⟨if (st.files.get "/index.html").isSome then "IndexHtml" else "[]byte\x7b\x7d",
            stringBytes (randStr rnd), stringBytes "text/html"⟩) ∧
      safeFunctionName L "/index.html" = "IndexHtml" ∧
      (∀ (filename : String) (content : List Byte) (st0 : GenState),
        relativePathOf input filename = "/index.html" →
        (readFileEntry L input filename content st0).out =
          st0.out ++ "var IndexHtml = []byte\x7b" ++
            literalText 0 (L.gzipWrite gzipBestCompression content).flatten ++ "\n\x7d\n") ∧
      (∀ h : String, st.files.get "/index.html" = some h →
        (∃ cases d, readSwitch switchText.data.length switchText.data = some (cases, d) ∧
          (stringBytes "/index.html",
            (⟨"IndexHtml", stringBytes h, stringBytes "text/html"⟩ : Returned)) ∈ cases) ∧
        writtenAsset switchText (stringBytes "/index.html") =
          some ⟨"IndexHtml", stringBytes h, stringBytes "text/html"⟩ ∧
        ∀ p : List Byte, (∀ kv ∈ st.files, stringBytes kv.1 ≠ p) →
          (writtenAsset switchText p).map (fun r => r.payload) =
            (writtenAsset switchText (stringBytes "/index.html")).map (fun r => r.payload)) := by
  obtain ⟨st1, hrun1, htext⟩ := main_ok L input output tag created listing range rnd text hmain
  rw [hrun] at hrun1
  cases hrun1
  have hread := main_switch_read L input input listing (headerText tag) range rnd st hrange hrun
    hkeys
  have htab := recursiveRead_table L input input listing (headerText tag) st hrun
  have hasset : ∀ p : List Byte,
      writtenAsset (dispatchText (mainCases L (range st.files) st.filesType)
        (mainDefault st.files (randStr rnd))) p =
      some (resolveSwitch ((mainCases L (range st.files) st.filesType).map
        (fun c => (stringBytes c.1,
          (⟨c.2.payload, stringBytes c.2.hash, stringBytes c.2.mime⟩ : Returned))))
        ⟨indexFile st.files, stringBytes (randStr rnd), stringBytes "text/html"⟩ p) := by
    intro p
    unfold writtenAsset
    rw [hread]
  have hdef : ∀ p : List Byte, (∀ kv ∈ st.files, stringBytes kv.1 ≠ p) →
      writtenAsset (dispatchText (mainCases L (range st.files) st.filesType)
        (mainDefault st.files (randStr rnd))) p =
      some ⟨indexFile st.files, stringBytes (randStr rnd), stringBytes "text/html"⟩ := by
    intro p hp
    rw [hasset p, resolveSwitch_default]
    intro c hc
    obtain ⟨c0, hc0, e⟩ := List.mem_map.mp hc
    obtain ⟨kv, hkv, e0⟩ := (mainCases_mem_iff L _ _ c0).mp hc0
    rw [← e, e0]
    exact hp kv ((hrange st.files).mem_iff.mp hkv)
  refine ⟨_, htext, hdef, rfl, ?_, ?_⟩
  · intro filename content st0 hkey
    rw [readFileEntry_out, hkey]
    rfl
  intro h hget
  have hmem : ("/index.html", h) ∈ st.files := GoMap_mem_of_get st.files _ _ hget
  have hmime : (st.filesType.get "/index.html").getD "" = "text/html" := by
    rw [htab.2 "/index.html" (by rw [hget]; rfl)]
    decide
  have hin : (stringBytes "/index.html",
      (⟨"IndexHtml", stringBytes h, stringBytes "text/html"⟩ : Returned)) ∈
      (mainCases L (range st.files) st.filesType).map (fun c => (stringBytes c.1,
        (⟨c.2.payload, stringBytes c.2.hash, stringBytes c.2.mime⟩ : Returned))) := by
    refine List.mem_map.mpr ⟨("/index.html", ⟨safeFunctionName L "/index.html", h,
      (st.filesType.get "/index.html").getD ""⟩), ?_, ?_⟩
    · exact (mainCases_mem_iff L _ _ _).mpr
        ⟨("/index.html", h), (hrange st.files).mem_iff.mpr hmem, rfl⟩
    · simp only [hmime]
      rfl
  have hcase : writtenAsset (dispatchText (mainCases L (range st.files) st.filesType)
        (mainDefault st.files (randStr rnd))) (stringBytes "/index.html") =
      some ⟨"IndexHtml", stringBytes h, stringBytes "text/html"⟩ := by
    rw [hasset]
    obtain ⟨c, hc, hlabel, hres⟩ := resolveSwitch_case _
      ⟨indexFile st.files, stringBytes (randStr rnd), stringBytes "text/html"⟩
      (stringBytes "/index.html") ⟨_, hin, rfl⟩
    rw [hres]
    obtain ⟨c0, hc0, e⟩ := List.mem_map.mp hc
    obtain ⟨kv, hkv, e0⟩ := (mainCases_mem_iff L _ _ c0).mp hc0
    have hkv1 : kv ∈ st.files := (hrange st.files).mem_iff.mp hkv
    rw [← e, e0] at hlabel
    have hk : kv.1 = "/index.html" := by
      have hd := stringBytes_ascii_inj "/index.html".data (by decide) kv.1.data hlabel
      exact String.ext hd
    have hh : kv.2 = h := by
      have h1 := GoMap_get_of_mem st.files kv.1 kv.2 htab.1 hkv1
      rw [hk, hget] at h1
      exact (Option.some.inj h1).symm
    rw [← e, e0]
    simp only [hk, hh, hmime]
    rfl
  refine ⟨⟨_, _, hread, hin⟩, hcase, ?_⟩
  intro p hp
  rw [hdef p hp, hcase]
  have hidx : indexFile st.files = "IndexHtml" := by
    unfold indexFile
    rw [hget]
    rfl
  simp only [Option.map_some', hidx]

/-- The witness of the amended C2: the root `pub` holds `app.js` and `index.html`, Go
ranges over the map in the reverse of the order of insertion, and the paths
`/missing/route` and `/index.html` are asked for. -/
theorem main_dispatch_default_witness :
    ∃ (st : GenState) (switchText : String),
      main plainLib "pub" "assets.go" "" true
        (some (.cons "app.js" (.file [1, 2]) (.cons "index.html" (.file [60, 112, 62]) .nil)))
        List.reverse (List.replicate 34 7) =
        .ok (st.out ++ resolverText "pub" ++ switchText) ∧
      st.files.map Prod.fst = ["/app.js", "/index.html"] ∧
      writtenAsset switchText (stringBytes "/missing/route") =
        some ⟨"IndexHtml", stringBytes (randStr (List.replicate 34 7)),
          stringBytes "text/html"⟩ ∧
      writtenAsset switchText (stringBytes "/index.html") =
        some ⟨"IndexHtml", stringBytes "00000000000000000000000000000000",
          stringBytes "text/html"⟩ := by
  obtain ⟨text, hmain⟩ : ∃ text, main plainLib "pub" "assets.go" "" true
      (some (.cons "app.js" (.file [1, 2]) (.cons "index.html" (.file [60, 112, 62]) .nil)))
      List.reverse (List.replicate 34 7) = .ok text := ⟨_, rfl⟩
  obtain ⟨switchText, h1, h2, _, _, h5⟩ := main_dispatch_default plainLib "pub" "assets.go" ""
    true (some (.cons "app.js" (.file [1, 2]) (.cons "index.html" (.file [60, 112, 62]) .nil)))
    List.reverse (List.replicate 34 7)
    (readFileEntry plainLib "pub" (pathJoin ["pub", "index.html"]) [60, 112, 62]
      (readFileEntry plainLib "pub" (pathJoin ["pub", "app.js"]) [1, 2]
        ⟨headerText "", [], []⟩))
    text (fun m => List.reverse_perm m) rfl hmain (by decide)
  refine ⟨readFileEntry plainLib "pub" (pathJoin ["pub", "index.html"]) [60, 112, 62]
      (readFileEntry plainLib "pub" (pathJoin ["pub", "app.js"]) [1, 2]
        ⟨headerText "", [], []⟩),
    switchText, ?_, by decide, h2 _ (by decide),
    (h5 "00000000000000000000000000000000" (by decide)).2.1⟩
  rw [← h1]
  exact hmain

set_option maxRecDepth 8192 in
/-- C2 (a key with an escape): with `-input pub` and the one file `index\x2ehtml` in
the root, the table has the key `/index\x2ehtml` alone, so the path `/index.html` is
not a key; the label written for the key denotes `/index.html`, and for that path the
`switch` that `main` writes takes the `case` and returns the constant `IndexX2ehtml`,
not what the `default` branch returns.  With a key that holds a double quote or a
line break the text written for the table does not read as a `switch` at all. -/
theorem dispatch_escaped_key :
    ∃ (st : GenState) (switchText : String),
      recursiveRead plainLib "pub" "pub" (some (.cons "index\\x2ehtml" (.file [1]) .nil))
        ⟨headerText "", [], []⟩ = .ok st ∧
      main plainLib "pub" "assets.go" "" true
        (some (.cons "index\\x2ehtml" (.file [1]) .nil)) id (List.replicate 34 7) =
        .ok (st.out ++ resolverText "pub" ++ switchText) ∧
      st.files = [("/index\\x2ehtml", "00000000000000000000000000000000")] ∧
      stringBytes "/index\\x2ehtml" ≠ stringBytes "/index.html" ∧
      writtenAsset switchText (stringBytes "/index.html") =
        some ⟨"IndexX2ehtml", stringBytes "00000000000000000000000000000000", []⟩ ∧
      (⟨"IndexX2ehtml", stringBytes "00000000000000000000000000000000", []⟩ : Returned) ≠
        ⟨"[]byte\x7b\x7d", stringBytes (randStr (List.replicate 34 7)),
          stringBytes "text/html"⟩ ∧
      writtenAsset
        (dispatchText
          (mainCases plainLib [("/a\"b", "00000000000000000000000000000000")]
            [("/a\"b", "")])
          (mainDefault [("/a\"b", "00000000000000000000000000000000")]
            (randStr (List.replicate 34 7))))
        (stringBytes "/index.html") = none ∧
      writtenAsset
        (dispatchText
          (mainCases plainLib [("/a\nb", "00000000000000000000000000000000")]
            [("/a\nb", "")])
          (mainDefault [("/a\nb", "00000000000000000000000000000000")]
            (randStr (List.replicate 34 7))))
        (stringBytes "/index.html") = none :=
  ⟨readFileEntry plainLib "pub" (pathJoin ["pub", "index\\x2ehtml"]) [1]
      ⟨headerText "", [], []⟩,
    dispatchText
      (mainCases plainLib
        (readFileEntry plainLib "pub" (pathJoin ["pub", "index\\x2ehtml"]) [1]
          ⟨headerText "", [], []⟩).files
        (readFileEntry plainLib "pub" (pathJoin ["pub", "index\\x2ehtml"]) [1]
          ⟨headerText "", [], []⟩).filesType)
      (mainDefault
        (readFileEntry plainLib "pub" (pathJoin ["pub", "index\\x2ehtml"]) [1]
          ⟨headerText "", [], []⟩).files
        (randStr (List.replicate 34 7))),
    rfl, rfl, by decide, by decide, by decide, by decide, by decide, by decide⟩

end GoEmbed
